import Mathlib

/-!
# Verification of the file-search-mcp result-truncation, caching, symlink and
# suggestion utilities

This development shallowly embeds the TypeScript utilities of the
`file-search-mcp` repository and proves properties about them:

* `src/utils/truncate.ts` — `truncateSearchResults`, `truncateString` and the
  character-size estimator `estimateChars` (serialized JSON size);
* `src/utils/cache.ts` — `QueryCache` (`generateKey`, `get`, `set`, `has`,
  `cleanup`, `clear`, `evictOldest`);
* the symlink tracker (`SymlinkTracker.checkAndMark`);
* the zero-result suggestion generator (`generateZeroResultSuggestions`).

Modelling conventions:

* JavaScript strings are modelled as Lean `String`s, i.e. sequences of Unicode
  scalar values; `s.length`, `s.slice` and character tests are modelled on
  `s.data` (the list of characters).  All concrete inputs used in
  counterexamples and witnesses are ASCII, where this model coincides exactly
  with UTF-16 semantics.
* JavaScript numbers occurring in the data (line numbers, sizes, timestamps,
  elapsed milliseconds) are naturals; `Date.now()` is threaded explicitly as a
  `now : Nat` argument.
* `JSON.stringify(x).length` is modelled by size functions computed
  compositionally over the object structure: a serialized string contributes
  `2` quotes plus per-character escaped sizes, an object `{k1:v1,…,kn:vn}`
  contributes `2` braces, the member sizes, and `n - 1` commas, an array
  likewise with brackets. Fields holding `undefined` (absent optional fields)
  are omitted by `JSON.stringify`, which the `Option` fields model.
* fallible filesystem calls (`lstat`, `realpath`) are modelled as `Option`
  valued oracle functions; a `try { … } catch { … }` around them becomes a
  `match` on the `Option`.
-/

namespace FileSearch

/-! ## Decimal digits of a natural number

`natDigitsAux` is fuel-based so that it reduces by `decide`/`rfl`; the fuel
`n + 1` always suffices since the argument at least halves every step. -/

/-- The character for a decimal digit (`d < 10`): `'0'` is code point 48. -/
def digitChar (d : Nat) : Char := Char.ofNat (48 + d)

/-- Fuel-based accumulator loop producing the decimal digits of `n`. -/
def natDigitsAux : Nat → Nat → List Char → List Char
  | 0, _, acc => acc
  | fuel + 1, n, acc =>
    if n < 10 then digitChar n :: acc
    else natDigitsAux fuel (n / 10) (digitChar (n % 10) :: acc)

/-- Decimal representation of a natural, as `String(n)` / `JSON.stringify(n)`
produce it for integral JavaScript numbers. -/
def natDigits (n : Nat) : List Char := natDigitsAux (n + 1) n []

/-! ## Serialized JSON sizes (`estimateChars`)

`estimateChars(obj) = JSON.stringify(obj).length` in `truncate.ts`.  The size
functions below compute that length compositionally for each shape of object
the truncation code serializes. -/

/-- Length contributed by one character inside a JSON string literal:
`"` and `\` are escaped to two characters, the short control escapes
(`\b \t \n \f \r`) to two, other control characters to a six-character
`\u00XX` escape, anything else is emitted as is (astral characters count two
UTF-16 units). -/
def jsonCharSize (c : Char) : Nat :=
  if c = '"' ∨ c = '\\' then 2
  else if c = '\x08' ∨ c = '\t' ∨ c = '\n' ∨ c = '\x0c' ∨ c = '\r' then 2
  else if c.val < 0x20 then 6
  else if c.val < 0x10000 then 1
  else 2

/-- Serialized length of a JSON string literal: two quotes plus the escaped
characters. -/
def jsonStrSize (s : String) : Nat := 2 + (s.data.map jsonCharSize).sum

/-- Serialized length of a JSON number (integral). -/
def jsonNatSize (n : Nat) : Nat := (natDigits n).length

/-- Serialized length of a JSON boolean (`true` / `false`). -/
def jsonBoolSize (b : Bool) : Nat := if b then 4 else 5

/-- Serialized length of a JSON array given its elements' serialized lengths:
two brackets, the elements, and a comma between consecutive elements. -/
def jsonArraySize (sizes : List Nat) : Nat := 2 + sizes.sum + (sizes.length - 1)

/-- Serialized length of one object member `"key":value`. -/
def jsonMemberSize (key : String) (valSize : Nat) : Nat :=
  jsonStrSize key + 1 + valSize

/-- Serialized length of a JSON object given its members' serialized lengths:
two braces, the members, and a comma between consecutive members. -/
def jsonObjSize (members : List Nat) : Nat :=
  2 + members.sum + (members.length - 1)

/-! ## The result data model (`src/types.ts`) -/

/-- `ContentMatch` from `types.ts`: a line number, the matched line's content,
and optional before/after context. -/
structure ContentMatch where
  line : Nat
  content : String
  context : Option (List String × List String)
deriving DecidableEq, Repr

/-- `FileMatch` from `types.ts` (`FileInfo` fields inlined): all fields except
`path` are optional and omitted from JSON when absent.  The source field name
`matches` is reserved syntax in Lean, so it is called `matchList` here. -/
structure FileMatch where
  path : String
  size : Option Nat
  sizeFormatted : Option String
  modified : Option String
  isDirectory : Option Bool
  matchList : Option (List ContentMatch)
  preview : Option String
deriving DecidableEq, Repr

/-- `SearchResult` from `types.ts`. -/
structure SearchResult where
  files : List FileMatch
  totalMatches : Nat
  truncated : Bool
  searchTime : Nat
  reasoning : String
deriving DecidableEq, Repr

/-- `MAX_TOKENS` constant from `types.ts`. -/
def MAX_TOKENS : Nat := 100000

/-- `CHARS_PER_TOKEN` constant from `types.ts`. -/
def CHARS_PER_TOKEN : Nat := 4

/-- `MAX_CHARS = MAX_TOKENS * CHARS_PER_TOKEN` from `types.ts`. -/
def MAX_CHARS : Nat := MAX_TOKENS * CHARS_PER_TOKEN

/-- Serialized size of a `context` object `{before: […], after: […]}`. -/
def contextSize (ctx : List String × List String) : Nat :=
  jsonObjSize
    [jsonMemberSize "before" (jsonArraySize (ctx.1.map jsonStrSize)),
     jsonMemberSize "after" (jsonArraySize (ctx.2.map jsonStrSize))]

/-- Serialized size (`estimateChars`) of a `ContentMatch`. -/
def contentMatchSize (m : ContentMatch) : Nat :=
  jsonObjSize
    ([jsonMemberSize "line" (jsonNatSize m.line),
      jsonMemberSize "content" (jsonStrSize m.content)] ++
     (match m.context with
      | none => []
      | some ctx => [jsonMemberSize "context" (contextSize ctx)]))

/-- Serialized size (`estimateChars`) of a `FileMatch`; absent optional fields
contribute nothing, mirroring `JSON.stringify` omitting `undefined` fields. -/
def fileMatchSize (f : FileMatch) : Nat :=
  jsonObjSize
    ([jsonMemberSize "path" (jsonStrSize f.path)] ++
     (match f.size with
      | none => [] | some n => [jsonMemberSize "size" (jsonNatSize n)]) ++
     (match f.sizeFormatted with
      | none => [] | some s => [jsonMemberSize "sizeFormatted" (jsonStrSize s)]) ++
     (match f.modified with
      | none => [] | some s => [jsonMemberSize "modified" (jsonStrSize s)]) ++
     (match f.isDirectory with
      | none => [] | some b => [jsonMemberSize "isDirectory" (jsonBoolSize b)]) ++
     (match f.matchList with
      | none => []
      | some ms => [jsonMemberSize "matches" (jsonArraySize (ms.map contentMatchSize))]) ++
     (match f.preview with
      | none => [] | some s => [jsonMemberSize "preview" (jsonStrSize s)]))

/-- Serialized size (`estimateChars`) of a whole `SearchResult`. -/
def searchResultSize (r : SearchResult) : Nat :=
  jsonObjSize
    [jsonMemberSize "files" (jsonArraySize (r.files.map fileMatchSize)),
     jsonMemberSize "totalMatches" (jsonNatSize r.totalMatches),
     jsonMemberSize "truncated" (jsonBoolSize r.truncated),
     jsonMemberSize "searchTime" (jsonNatSize r.searchTime),
     jsonMemberSize "reasoning" (jsonStrSize r.reasoning)]

/-! ## `truncateSearchResults` (`src/utils/truncate.ts`) -/

/-- Serialized size of the initial empty-result envelope
`{files: [], totalMatches: 0, truncated: false, searchTime, reasoning}`
computed by the first `estimateChars` call in `truncateSearchResults`. -/
def envelopeSize (reasoning : String) (searchTime : Nat) : Nat :=
  searchResultSize
    { files := [], totalMatches := 0, truncated := false
      searchTime := searchTime, reasoning := reasoning }

/-- Contribution of one file to `totalMatches`:
`file.matches?.length || 1` — the match count when the file has a nonempty
match array, otherwise `1` (an empty array is `0`, which is falsy). -/
def matchCount (f : FileMatch) : Nat :=
  match f.matchList with
  | none => 1
  | some ms => if ms.length = 0 then 1 else ms.length

/-- The accumulation loop of `truncateSearchResults`: walk the input files,
keeping a running `currentChars`; a file whose `estimateChars` would push the
running total past `maxChars` stops the loop and sets `truncated`.  Returns
the accepted files, the accumulated `totalMatches`, and the `truncated`
flag. -/
def fillFiles (maxChars : Nat) : List FileMatch → Nat → List FileMatch × Nat × Bool
  | [], _ => ([], 0, false)
  | f :: rest, currentChars =>
    let fileChars := fileMatchSize f
    if currentChars + fileChars > maxChars then ([], 0, true)
    else
      let r := fillFiles maxChars rest (currentChars + fileChars)
      (f :: r.1, matchCount f + r.2.1, r.2.2)

/-- Degradation of a single retained match inside the trimming loop: the
content is cut to its first 200 characters plus an ellipsis when longer, and
`delete match.context` drops the context. -/
def truncMatch (m : ContentMatch) : ContentMatch :=
  { line := m.line
    content :=
      if m.content.data.length > 200 then ⟨m.content.data.take 200 ++ "...".data⟩
      else m.content
    context := none }

/-- Degradation of a file at or beyond the midpoint: matches are capped to the
first 3 and degraded, and `delete result.files[i].preview` drops the
preview. -/
def degradeFile (f : FileMatch) : FileMatch :=
  { f with
    matchList := f.matchList.map (fun ms => (ms.take 3).map truncMatch)
    preview := none }

/-- The trimming loop
`for (let i = Math.floor(len / 2); i < len; i++) { … }`: entries at index
`≥ mid` are degraded, earlier entries kept unchanged (`i` counts from
`start`). -/
def degradeFrom (mid : Nat) (i : Nat) : List FileMatch → List FileMatch
  | [] => []
  | f :: rest => (if mid ≤ i then degradeFile f else f) :: degradeFrom mid (i + 1) rest

/-- `truncateSearchResults(files, reasoning, searchTime)` from
`src/utils/truncate.ts`: accumulate files while the running character
estimate stays within `MAX_CHARS - 1000`, then, if truncation occurred and at
least one file was kept, degrade the files from the midpoint on. -/
def truncateSearchResults (files : List FileMatch) (reasoning : String)
    (searchTime : Nat) : SearchResult :=
  let maxChars := MAX_CHARS - 1000
  let currentChars := envelopeSize reasoning searchTime
  let acc := fillFiles maxChars files currentChars
  let kept := acc.1
  let outFiles :=
    if acc.2.2 = true ∧ kept.length > 0 then
      degradeFrom (kept.length / 2) 0 kept
    else kept
  { files := outFiles, totalMatches := acc.2.1, truncated := acc.2.2
    searchTime := searchTime, reasoning := reasoning }

/-- JavaScript `str.slice(0, e)` for a possibly negative end index `e`:
a negative `e` counts from the end of the string, clamped at `0`. -/
def jsSliceTo (s : String) (e : Int) : String :=
  ⟨s.data.take
    (if e < 0 then max ((s.data.length : Int) + e) 0
     else min e (s.data.length : Int)).toNat⟩

/-- `truncateString(str, maxLength)` from `src/utils/truncate.ts`:
return `str` unchanged when it fits, else `str.slice(0, maxLength - 3)`
followed by an ellipsis.  `maxLength - 3` is computed in `Int` as in
JavaScript, where it can be negative. -/
def truncateString (str : String) (maxLength : Nat) : String :=
  if str.data.length ≤ maxLength then str
  else ⟨(jsSliceTo str ((maxLength : Int) - 3)).data ++ "...".data⟩

/-! ## Lemmas about the truncation loop -/

/-- `'a'` serializes to a single character inside a JSON string. -/
lemma jsonCharSize_a : jsonCharSize 'a' = 1 := by decide

/-- Size of a serialized string of `n` letters `'a'`. -/
lemma jsonStrSize_replicate (n : Nat) :
    jsonStrSize (String.mk (List.replicate n 'a')) = 2 + n := by
  simp [jsonStrSize, List.map_replicate, jsonCharSize_a, List.sum_const_nat]

/-- Closed form of the envelope size: the fixed members plus the serialized
sizes of `searchTime` and `reasoning`. -/
lemma envelopeSize_eq (r : String) (t : Nat) :
    envelopeSize r t = 74 + jsonNatSize t + jsonStrSize r := by
  have h1 : jsonStrSize "files" = 7 := by decide
  have h2 : jsonStrSize "totalMatches" = 14 := by decide
  have h3 : jsonStrSize "truncated" = 11 := by decide
  have h4 : jsonStrSize "searchTime" = 12 := by decide
  have h5 : jsonStrSize "reasoning" = 11 := by decide
  have h6 : jsonNatSize 0 = 1 := by decide
  simp [envelopeSize, searchResultSize, jsonObjSize, jsonMemberSize, jsonArraySize,
    jsonBoolSize, h1, h2, h3, h4, h5, h6]
  omega

/-- The running estimate after the accumulation loop never exceeds the loop
bound (or the starting estimate, if that was already over the bound). -/
lemma fillFiles_le (m : Nat) (files : List FileMatch) (c : Nat) :
    c + ((fillFiles m files c).1.map fileMatchSize).sum ≤ max c m := by
  induction files generalizing c with
  | nil => simpa [fillFiles] using le_max_left c m
  | cons f rest ih =>
    simp only [fillFiles]
    by_cases h : c + fileMatchSize f > m
    · simpa [h] using le_max_left c m
    · have hle : c + fileMatchSize f ≤ m := le_of_not_lt h
      have h2 := ih (c + fileMatchSize f)
      rw [Nat.max_eq_right hle] at h2
      have h3 : m ≤ max c m := le_max_right c m
      simp only [h, if_false]
      simp only [List.map_cons, List.sum_cons]
      omega

/-- If the whole input fits in the budget estimate, the loop accepts every
file, sums up all the match counts, and never sets `truncated`. -/
lemma fillFiles_all (m : Nat) (files : List FileMatch) (c : Nat)
    (h : c + (files.map fileMatchSize).sum ≤ m) :
    fillFiles m files c = (files, (files.map matchCount).sum, false) := by
  induction files generalizing c with
  | nil => simp [fillFiles]
  | cons f rest ih =>
    simp only [List.map_cons, List.sum_cons] at h
    have hnot : ¬(c + fileMatchSize f > m) := by omega
    have hrest : c + fileMatchSize f + (rest.map fileMatchSize).sum ≤ m := by omega
    simp [fillFiles, hnot, ih (c + fileMatchSize f) hrest]

/-- The accepted files form a prefix of the input. -/
lemma fillFiles_prefix (m : Nat) (files : List FileMatch) (c : Nat) :
    (fillFiles m files c).1 <+: files := by
  induction files generalizing c with
  | nil => simp [fillFiles]
  | cons f rest ih =>
    simp only [fillFiles]
    by_cases h : c + fileMatchSize f > m
    · simp [h]
    · simp only [h, if_false]
      obtain ⟨tail, htail⟩ := ih (c + fileMatchSize f)
      exact ⟨tail, by simp [htail]⟩

/-- Degrading files does not add or remove entries. -/
lemma degradeFrom_length (mid i : Nat) (l : List FileMatch) :
    (degradeFrom mid i l).length = l.length := by
  induction l generalizing i with
  | nil => rfl
  | cons f rest ih => simp [degradeFrom, ih]

/-- C1, amended.  The running character estimate maintained by
`truncateSearchResults` — the serialized size of the empty-result envelope plus
the sum of the individual serialized sizes of the accepted entries — never
exceeds `MAX_CHARS - 1000 = 399000` (or the envelope size itself, when the
envelope alone is already over that bound); and the degradation phase never
changes the number of returned entries.  The serialized size of the whole
result is *not* bounded by `MAX_CHARS` in general (see the counterexample):
the estimate does not charge for the commas between serialized entries, for
the growth of the `totalMatches` counter, or for an oversized `reasoning`
echoed into the envelope. -/
theorem truncate_budget_estimate (files : List FileMatch) (r : String) (t : Nat) :
    envelopeSize r t
        + ((fillFiles (MAX_CHARS - 1000) files (envelopeSize r t)).1.map fileMatchSize).sum
      ≤ max (envelopeSize r t) (MAX_CHARS - 1000)
    ∧ (truncateSearchResults files r t).files.length
        = (fillFiles (MAX_CHARS - 1000) files (envelopeSize r t)).1.length := by
  refine ⟨fillFiles_le _ _ _, ?_⟩
  simp only [truncateSearchResults]
  split
  · simp [degradeFrom_length]
  · rfl

/-- `truncateSearchResults` on an empty input returns the empty envelope. -/
lemma truncateSearchResults_nil (r : String) (t : Nat) :
    truncateSearchResults [] r t =
      { files := [], totalMatches := 0, truncated := false, searchTime := t,
        reasoning := r } := by
  simp [truncateSearchResults, fillFiles]

/-- C1, counterexample to the claim as stated: with an input of no files at
all and a 400000-character `reasoning`, the serialized size of the returned
result is `400077 > MAX_CHARS` — the budget does not bound the whole
serialized result. -/
theorem truncate_budget_counterexample :
    MAX_CHARS <
      searchResultSize
        (truncateSearchResults [] (String.mk (List.replicate 400000 'a')) 0) := by
  rw [truncateSearchResults_nil]
  have h1 : searchResultSize
      { files := [], totalMatches := 0, truncated := false, searchTime := 0,
        reasoning := String.mk (List.replicate 400000 'a') }
      = 74 + jsonNatSize 0 + jsonStrSize (String.mk (List.replicate 400000 'a')) :=
    envelopeSize_eq _ 0
  rw [h1, jsonStrSize_replicate]
  decide

/-- C2, amended.  If the estimated size of the full input — envelope plus the
sum of the per-entry serialized sizes — fits in `MAX_CHARS - 1000` (the bound
the code actually checks, not `MAX_CHARS` itself), then nothing is truncated:
`truncated` is `false` and the `files` of the result are exactly the input
entries, unmodified, with `totalMatches` summing every entry's match count. -/
theorem no_spurious_truncation (files : List FileMatch) (r : String) (t : Nat)
    (h : envelopeSize r t + (files.map fileMatchSize).sum ≤ MAX_CHARS - 1000) :
    truncateSearchResults files r t =
      { files := files, totalMatches := (files.map matchCount).sum,
        truncated := false, searchTime := t, reasoning := r } := by
  simp [truncateSearchResults, fillFiles_all _ _ _ h]

/-- Witness for `no_spurious_truncation` at a concrete small input. -/
theorem no_spurious_truncation_witness :
    envelopeSize "" 0
        + ([(⟨"a", none, none, none, none, none, none⟩ : FileMatch)].map fileMatchSize).sum
      ≤ MAX_CHARS - 1000
    ∧ truncateSearchResults [⟨"a", none, none, none, none, none, none⟩] "" 0 =
      { files := [⟨"a", none, none, none, none, none, none⟩], totalMatches := 1,
        truncated := false, searchTime := 0, reasoning := "" } := by
  refine ⟨by decide, ?_⟩
  have h := no_spurious_truncation
    [(⟨"a", none, none, none, none, none, none⟩ : FileMatch)] "" 0 (by decide)
  simpa using h

/-- Size of a `FileMatch` that has only a path and a preview. -/
lemma fileMatchSize_previewOnly (s : String) :
    fileMatchSize ⟨"", none, none, none, none, none, some s⟩ = 22 + jsonStrSize s := by
  have h1 : jsonStrSize "path" = 6 := by decide
  have h2 : jsonStrSize "preview" = 9 := by decide
  have h3 : jsonStrSize "" = 2 := by decide
  simp [fileMatchSize, jsonObjSize, jsonMemberSize, h1, h2, h3]
  omega

/-- A file rejected by the very first loop iteration stops the loop. -/
lemma fillFiles_head_reject (m c : Nat) (f : FileMatch) (rest : List FileMatch)
    (h : m < c + fileMatchSize f) : fillFiles m (f :: rest) c = ([], 0, true) := by
  simp [fillFiles, h]

/-- One accepted step of the accumulation loop, written symbolically. -/
lemma fillFiles_cons_accept (m c : Nat) (f : FileMatch) (rest : List FileMatch)
    (h : ¬(c + fileMatchSize f > m)) :
    fillFiles m (f :: rest) c =
      (f :: (fillFiles m rest (c + fileMatchSize f)).1,
        matchCount f + (fillFiles m rest (c + fileMatchSize f)).2.1,
        (fillFiles m rest (c + fileMatchSize f)).2.2) := by
  simp [fillFiles, h]

/-- A file whose preview alone is 399000 characters: it fits in `MAX_CHARS`
together with the envelope, but not in the `MAX_CHARS - 1000` the code
checks. -/
def bigPreviewFile : FileMatch :=
  ⟨"", none, none, none, none, none, some (String.mk (List.replicate 399000 'a'))⟩

/-- Serialized size of `bigPreviewFile`. -/
lemma bigPreviewFile_size : fileMatchSize bigPreviewFile = 399024 := by
  rw [bigPreviewFile, fileMatchSize_previewOnly, jsonStrSize_replicate]

/-- Evaluation of the truncation on the single oversized file. -/
lemma truncate_bigPreviewFile :
    truncateSearchResults [bigPreviewFile] "" 0 =
      { files := [], totalMatches := 0, truncated := true, searchTime := 0,
        reasoning := "" } := by
  have henv : envelopeSize "" 0 = 77 := by decide
  simp only [truncateSearchResults, henv]
  rw [fillFiles_head_reject _ _ _ _
    (by rw [bigPreviewFile_size]; norm_num [MAX_CHARS, MAX_TOKENS, CHARS_PER_TOKEN])]
  simp

/-- Closed form for the serialized size of a one-file, untruncated result. -/
lemma searchResultSize_single (f : FileMatch) (tm t : Nat) (r : String) :
    searchResultSize
        { files := [f], totalMatches := tm, truncated := false, searchTime := t,
          reasoning := r }
      = 73 + fileMatchSize f + jsonNatSize tm + jsonNatSize t + jsonStrSize r := by
  have h1 : jsonStrSize "files" = 7 := by decide
  have h2 : jsonStrSize "totalMatches" = 14 := by decide
  have h3 : jsonStrSize "truncated" = 11 := by decide
  have h4 : jsonStrSize "searchTime" = 12 := by decide
  have h5 : jsonStrSize "reasoning" = 11 := by decide
  simp [searchResultSize, jsonObjSize, jsonMemberSize, jsonArraySize,
    jsonBoolSize, h1, h2, h3, h4, h5]
  omega

/-- C2, counterexample to the claim as stated: the serialized size of the full
input plus envelope is `399101 ≤ MAX_CHARS = 400000`, yet the result is
truncated and drops the (only) entry, because the code compares against
`MAX_CHARS - 1000 = 399000`. -/
theorem no_spurious_truncation_counterexample :
    searchResultSize
        { files := [bigPreviewFile], totalMatches := 1, truncated := false,
          searchTime := 0, reasoning := "" } ≤ MAX_CHARS
    ∧ (truncateSearchResults [bigPreviewFile] "" 0).truncated = true
    ∧ (truncateSearchResults [bigPreviewFile] "" 0).files = [] := by
  refine ⟨?_, by rw [truncate_bigPreviewFile], by rw [truncate_bigPreviewFile]⟩
  rw [searchResultSize_single, bigPreviewFile_size]
  have h1 : jsonNatSize 1 = 1 := by decide
  have h2 : jsonNatSize 0 = 1 := by decide
  have h3 : jsonStrSize "" = 2 := by decide
  rw [h1, h2, h3]
  decide

/-! ## C3: shape of the degradation phase -/

/-- C3.  Whenever the result is truncated with at least one entry kept, the
returned files are exactly a prefix of the input (no accepted entry removed),
transformed by the midpoint loop: entries at index `< ⌊count / 2⌋` unchanged,
entries at index `≥ ⌊count / 2⌋` degraded.  Degradation caps the matches to
the first 3, truncates each retained match's content to 200 characters plus
an ellipsis when longer, drops the context of each retained match, and drops
the preview; the path (and the other file fields) stay unchanged. -/
theorem truncation_degrades_past_midpoint (files : List FileMatch) (r : String)
    (t : Nat)
    (htr : (truncateSearchResults files r t).truncated = true)
    (hne : (truncateSearchResults files r t).files ≠ []) :
    ((truncateSearchResults files r t).files =
        degradeFrom ((truncateSearchResults files r t).files.length / 2) 0
          (files.take (truncateSearchResults files r t).files.length))
    ∧ (∀ f : FileMatch, (degradeFile f).preview = none
        ∧ (degradeFile f).matchList = f.matchList.map (fun ms => (ms.take 3).map truncMatch)
        ∧ (degradeFile f).path = f.path ∧ (degradeFile f).size = f.size
        ∧ (degradeFile f).sizeFormatted = f.sizeFormatted
        ∧ (degradeFile f).modified = f.modified
        ∧ (degradeFile f).isDirectory = f.isDirectory)
    ∧ (∀ m : ContentMatch, (truncMatch m).context = none
        ∧ (truncMatch m).line = m.line
        ∧ (truncMatch m).content =
            (if m.content.data.length > 200 then ⟨m.content.data.take 200 ++ "...".data⟩
             else m.content)) := by
  refine ⟨?_, fun f => ⟨rfl, rfl, rfl, rfl, rfl, rfl, rfl⟩, fun m => ⟨rfl, rfl, rfl⟩⟩
  have hkept := fillFiles_prefix (MAX_CHARS - 1000) files (envelopeSize r t)
  rw [List.prefix_iff_eq_take] at hkept
  have htr' : (fillFiles (MAX_CHARS - 1000) files (envelopeSize r t)).2.2 = true := htr
  by_cases hlen : (fillFiles (MAX_CHARS - 1000) files (envelopeSize r t)).1.length > 0
  · have hfiles : (truncateSearchResults files r t).files =
        degradeFrom ((fillFiles (MAX_CHARS - 1000) files (envelopeSize r t)).1.length / 2) 0
          (fillFiles (MAX_CHARS - 1000) files (envelopeSize r t)).1 := by
      simp only [truncateSearchResults]
      rw [if_pos ⟨htr', hlen⟩]
    rw [hfiles, degradeFrom_length]
    exact congrArg _ hkept
  · have hfiles : (truncateSearchResults files r t).files =
        (fillFiles (MAX_CHARS - 1000) files (envelopeSize r t)).1 := by
      simp only [truncateSearchResults]
      rw [if_neg (fun hc => hlen hc.2)]
    rw [hfiles] at hne
    exact absurd (List.length_eq_zero.mp (Nat.eq_zero_of_not_pos hlen)) hne

/-- A tiny file accepted ahead of `bigPreviewFile`. -/
def tinyFileA : FileMatch := ⟨"a", none, none, none, none, none, none⟩

/-- Evaluation of the truncation on a small file followed by an oversized
one: the small file is kept, the oversized one triggers truncation, and the
single kept file (index `0 ≥ ⌊1/2⌋`) is degraded (a no-op here, as it has no
matches and no preview). -/
lemma truncate_tiny_big :
    truncateSearchResults [tinyFileA, bigPreviewFile] "" 0 =
      { files := [tinyFileA], totalMatches := 1, truncated := true,
        searchTime := 0, reasoning := "" } := by
  have henv : envelopeSize "" 0 = 77 := by decide
  have hsize : fileMatchSize tinyFileA = 12 := by decide
  have hrej : fillFiles (MAX_CHARS - 1000) [bigPreviewFile] (77 + fileMatchSize tinyFileA) =
      ([], 0, true) := by
    rw [hsize]
    exact fillFiles_head_reject _ _ _ _
      (by rw [bigPreviewFile_size]; norm_num [MAX_CHARS, MAX_TOKENS, CHARS_PER_TOKEN])
  have hfill : fillFiles (MAX_CHARS - 1000) [tinyFileA, bigPreviewFile] 77 =
      ([tinyFileA], 1, true) := by
    have hacc : ¬(77 + fileMatchSize tinyFileA > MAX_CHARS - 1000) := by
      rw [hsize]; norm_num [MAX_CHARS, MAX_TOKENS, CHARS_PER_TOKEN]
    rw [fillFiles_cons_accept _ _ _ _ hacc, hrej]
    simp [tinyFileA, matchCount]
  simp only [truncateSearchResults, henv, hfill]
  simp [degradeFrom, degradeFile, tinyFileA]

/-- Witness for `truncation_degrades_past_midpoint` at a concrete input with
one kept entry and a truncating oversized entry. -/
theorem truncation_degrades_past_midpoint_witness :
    (truncateSearchResults [tinyFileA, bigPreviewFile] "" 0).truncated = true
    ∧ (truncateSearchResults [tinyFileA, bigPreviewFile] "" 0).files =
        degradeFrom
          ((truncateSearchResults [tinyFileA, bigPreviewFile] "" 0).files.length / 2) 0
          ([tinyFileA, bigPreviewFile].take
            (truncateSearchResults [tinyFileA, bigPreviewFile] "" 0).files.length) := by
  have h := truncation_degrades_past_midpoint [tinyFileA, bigPreviewFile] "" 0
    (by rw [truncate_tiny_big]) (by rw [truncate_tiny_big]; simp)
  exact ⟨by rw [truncate_tiny_big], h.1⟩

/-! ## C4: `truncateString` -/

/-- C4, amended.  For `maxLength ≥ 3` (for smaller values the JavaScript
negative-index `slice` makes the claim false, see the counterexample):
a string that fits is returned unchanged; a longer string becomes its first
`maxLength - 3` characters followed by the ellipsis marker, with total length
exactly `maxLength`. -/
theorem truncateString_spec (s : String) (maxLength : Nat) (h3 : 3 ≤ maxLength) :
    (s.data.length ≤ maxLength → truncateString s maxLength = s)
    ∧ (maxLength < s.data.length →
        truncateString s maxLength = ⟨s.data.take (maxLength - 3) ++ "...".data⟩
        ∧ (truncateString s maxLength).data.length = maxLength) := by
  constructor
  · intro hle
    unfold truncateString
    rw [if_pos hle]
  · intro hlt
    have hnle : ¬ s.data.length ≤ maxLength := not_le.mpr hlt
    have hnotneg : ¬ ((maxLength : Int) - 3 < 0) := by omega
    have hslice : (jsSliceTo s ((maxLength : Int) - 3)).data = s.data.take (maxLength - 3) := by
      show List.take _ s.data = _
      rw [if_neg hnotneg]
      congr 1
      omega
    have heq : truncateString s maxLength = ⟨s.data.take (maxLength - 3) ++ "...".data⟩ := by
      unfold truncateString
      rw [if_neg hnle, hslice]
    refine ⟨heq, ?_⟩
    rw [heq]
    show (s.data.take (maxLength - 3) ++ "...".data).length = maxLength
    rw [List.length_append, List.length_take]
    have hdots : ("...".data).length = 3 := by decide
    rw [hdots]
    omega

/-- Witness for `truncateString_spec`: both branches at concrete inputs. -/
theorem truncateString_spec_witness :
    truncateString "ab" 5 = "ab"
    ∧ truncateString "abcdef" 5 = "ab..."
    ∧ (truncateString "abcdef" 5).data.length = 5 := by
  have h1 := (truncateString_spec "ab" 5 (by decide)).1 (by decide)
  have h2 := (truncateString_spec "abcdef" 5 (by decide)).2 (by decide)
  exact ⟨h1, h2.1.trans (by decide), h2.2⟩

/-- C4, counterexample to the claim as stated: for `maxLength = 0` and the
four-character input `"abcd"`, JavaScript computes `"abcd".slice(0, -3)`,
which keeps the first character, so the result is `"a..."` of length 4, not
a string of length `maxLength = 0`. -/
theorem truncateString_counterexample :
    truncateString "abcd" 0 = "a..."
    ∧ (truncateString "abcd" 0).data.length ≠ 0 := by
  constructor
  · decide
  · decide

/-! ## `QueryCache` (`src/utils/cache.ts`)

The JavaScript `Map` is modelled as an association list in insertion order
with (invariantly) unique keys: `Map.get`/`Map.set`/`Map.delete` become
`lookupKey`/`setKey`/`eraseKey`, and `Map` iteration order is the list
order.  `Date.now()` is passed explicitly as `now`.  `now - entry.timestamp`
is `Nat` subtraction: both model a clock that never runs backwards the same
way (a negative JavaScript difference and a truncated-to-zero `Nat`
difference are both `≤ ttl`). -/

/-- `CacheEntry` from `cache.ts`. -/
structure CacheEntry (V : Type) where
  value : V
  timestamp : Nat
  hits : Nat
deriving DecidableEq, Repr

/-- The private state of a `QueryCache`. -/
structure CacheState (V : Type) where
  entries : List (String × CacheEntry V)
  ttlMs : Nat
  maxSize : Nat
  hits : Nat
  misses : Nat
deriving DecidableEq, Repr

/-- A freshly constructed cache. -/
def initCache (V : Type) (ttlMs maxSize : Nat) : CacheState V :=
  { entries := [], ttlMs := ttlMs, maxSize := maxSize, hits := 0, misses := 0 }

/-- `Map.get`: first (and, with unique keys, only) entry for a key. -/
def lookupKey {V : Type} (k : String) : List (String × CacheEntry V) → Option (CacheEntry V)
  | [] => none
  | kv :: rest => if kv.1 = k then some kv.2 else lookupKey k rest

/-- `Map.set`: replace the entry in place if the key is present (keeping its
position, as JavaScript `Map.set` does), else append at the end. -/
def setKey {V : Type} (k : String) (e : CacheEntry V) :
    List (String × CacheEntry V) → List (String × CacheEntry V)
  | [] => [(k, e)]
  | kv :: rest => if kv.1 = k then (k, e) :: rest else kv :: setKey k e rest

/-- `Map.delete`: remove the (first) entry for a key. -/
def eraseKey {V : Type} (k : String) :
    List (String × CacheEntry V) → List (String × CacheEntry V)
  | [] => []
  | kv :: rest => if kv.1 = k then rest else kv :: eraseKey k rest

/-- `entry.hits++` for the entry of key `k` (JavaScript mutates the stored
entry object in place). -/
def bumpHits {V : Type} (k : String) :
    List (String × CacheEntry V) → List (String × CacheEntry V)
  | [] => []
  | kv :: rest =>
    if kv.1 = k then (kv.1, { kv.2 with hits := kv.2.hits + 1 }) :: rest
    else kv :: bumpHits k rest

/-- `QueryCache.get(key)` at time `now`: a missing entry counts a miss; a
stale entry (`now - timestamp > ttlMs`) is deleted and counts a miss;
otherwise the entry's and the cache's hit counters are bumped and the value
returned. -/
def getOp {V : Type} (st : CacheState V) (k : String) (now : Nat) :
    Option V × CacheState V :=
  match lookupKey k st.entries with
  | none => (none, { st with misses := st.misses + 1 })
  | some e =>
    if now - e.timestamp > st.ttlMs then
      (none, { st with entries := eraseKey k st.entries, misses := st.misses + 1 })
    else
      (some e.value, { st with entries := bumpHits k st.entries, hits := st.hits + 1 })

/-- The fold inside `evictOldest`: the running `oldest` is replaced only when
an entry's timestamp is strictly smaller, so the first entry (in insertion
order) among those with the minimal timestamp wins. -/
def findOldestFrom {V : Type} (k : String) (ts : Nat) :
    List (String × CacheEntry V) → String × Nat
  | [] => (k, ts)
  | kv :: rest =>
    if kv.2.timestamp < ts then findOldestFrom kv.1 kv.2.timestamp rest
    else findOldestFrom k ts rest

/-- `evictOldest`'s scan over `cache.entries()`: `none` on an empty map. -/
def findOldest {V : Type} : List (String × CacheEntry V) → Option (String × Nat)
  | [] => none
  | kv :: rest => some (findOldestFrom kv.1 kv.2.timestamp rest)

/-- `QueryCache.evictOldest()`. -/
def evictOldest {V : Type} (st : CacheState V) : CacheState V :=
  match findOldest st.entries with
  | none => st
  | some ko => { st with entries := eraseKey ko.1 st.entries }

/-- `QueryCache.set(key, value)` at time `now`: evict the oldest entry when
at capacity, then store a fresh entry with `timestamp = now`, `hits = 0`. -/
def setOp {V : Type} (st : CacheState V) (k : String) (v : V) (now : Nat) :
    CacheState V :=
  let st1 := if st.entries.length ≥ st.maxSize then evictOldest st else st
  { st1 with entries := setKey k { value := v, timestamp := now, hits := 0 } st1.entries }

/-- `QueryCache.has(key)` at time `now`: lazily deletes a stale entry. -/
def hasOp {V : Type} (st : CacheState V) (k : String) (now : Nat) :
    Bool × CacheState V :=
  match lookupKey k st.entries with
  | none => (false, st)
  | some e =>
    if now - e.timestamp > st.ttlMs then
      (false, { st with entries := eraseKey k st.entries })
    else (true, st)

/-- `QueryCache.cleanup()` at time `now`: drop every stale entry, returning
how many were removed. -/
def cleanupOp {V : Type} (st : CacheState V) (now : Nat) : Nat × CacheState V :=
  let kept := st.entries.filter (fun kv => ¬(now - kv.2.timestamp > st.ttlMs))
  (st.entries.length - kept.length, { st with entries := kept })

/-- `QueryCache.clear()`. -/
def clearOp {V : Type} (st : CacheState V) : CacheState V :=
  { st with entries := [], hits := 0, misses := 0 }

/-- One public cache operation (with its `Date.now()` value where the
implementation reads the clock). -/
inductive CacheOp (V : Type) where
  | get (k : String) (now : Nat)
  | set (k : String) (v : V) (now : Nat)
  | has (k : String) (now : Nat)
  | cleanup (now : Nat)
  | clear

/-- Apply one operation to the cache state. -/
def applyOp {V : Type} (st : CacheState V) : CacheOp V → CacheState V
  | .get k now => (getOp st k now).2
  | .set k v now => setOp st k v now
  | .has k now => (hasOp st k now).2
  | .cleanup now => (cleanupOp st now).2
  | .clear => clearOp st

/-- Apply a sequence of operations in order. -/
def runOps {V : Type} (st : CacheState V) : List (CacheOp V) → CacheState V
  | [] => st
  | op :: rest => runOps (applyOp st op) rest

/-! ## Lemmas about the cache map model -/

/-- Looking up the key just set finds the fresh entry. -/
lemma lookup_setKey {V : Type} (k : String) (e : CacheEntry V)
    (l : List (String × CacheEntry V)) : lookupKey k (setKey k e l) = some e := by
  induction l with
  | nil => simp [setKey, lookupKey]
  | cons kv rest ih =>
    by_cases h : kv.1 = k
    · simp [setKey, lookupKey, h]
    · simp [setKey, lookupKey, h, ih]

/-- `setOp` preserves the configured TTL. -/
lemma setOp_ttlMs {V : Type} (st : CacheState V) (k : String) (v : V) (now : Nat) :
    (setOp st k v now).ttlMs = st.ttlMs := by
  by_cases h : st.entries.length ≥ st.maxSize
  · simp only [setOp, h, if_true]
    unfold evictOldest
    cases findOldest st.entries <;> rfl
  · simp [setOp, h]

/-- `setOp` preserves the configured capacity. -/
lemma setOp_maxSize {V : Type} (st : CacheState V) (k : String) (v : V) (now : Nat) :
    (setOp st k v now).maxSize = st.maxSize := by
  by_cases h : st.entries.length ≥ st.maxSize
  · simp only [setOp, h, if_true]
    unfold evictOldest
    cases findOldest st.entries <;> rfl
  · simp [setOp, h]

/-- After `setOp st k v now`, key `k` holds the fresh entry. -/
lemma lookup_setOp {V : Type} (st : CacheState V) (k : String) (v : V) (now : Nat) :
    lookupKey k (setOp st k v now).entries =
      some { value := v, timestamp := now, hits := 0 } := by
  by_cases h : st.entries.length ≥ st.maxSize <;>
    simp [setOp, h, lookup_setKey]

/-- C6.  Behaviour of `QueryCache.get`: a missing key counts a miss; an entry
older than the TTL is deleted and counts a miss; a fresh entry bumps its own
and the global hit counter and returns the stored value.  In particular,
after `set(k, v)` at time `T` with `ttl = 1000`, `get(k)` at `T + 999`
returns `v` and `get(k)` at `T + 1001` returns absent. -/
theorem cache_get_spec {V : Type} (st : CacheState V) (k : String) (now : Nat)
    (v : V) (T : Nat) :
    (lookupKey k st.entries = none →
        getOp st k now = (none, { st with misses := st.misses + 1 }))
    ∧ (∀ e : CacheEntry V, lookupKey k st.entries = some e →
        (now - e.timestamp > st.ttlMs →
          getOp st k now =
            (none, { st with entries := eraseKey k st.entries,
                             misses := st.misses + 1 }))
        ∧ (¬(now - e.timestamp > st.ttlMs) →
          getOp st k now =
            (some e.value, { st with entries := bumpHits k st.entries,
                                     hits := st.hits + 1 })))
    ∧ (st.ttlMs = 1000 →
        (getOp (setOp st k v T) k (T + 999)).1 = some v
        ∧ (getOp (setOp st k v T) k (T + 1001)).1 = none) := by
  refine ⟨?_, ?_, ?_⟩
  · intro h
    simp [getOp, h]
  · intro e he
    constructor
    · intro hstale
      simp [getOp, he, hstale]
    · intro hfresh
      simp [getOp, he, hfresh]
  · intro httl
    have hl := lookup_setOp st k v T
    have httl' := setOp_ttlMs st k v T
    constructor
    · have hcond : ¬((setOp st k v T).ttlMs < 999) := by
        rw [httl', httl]; omega
      simp [getOp, hl, hcond]
    · have hcond : (setOp st k v T).ttlMs < 1001 := by
        rw [httl', httl]; omega
      simp [getOp, hl, hcond]

/-- Witness for `cache_get_spec`: the TTL scenario on a fresh cache. -/
theorem cache_get_spec_witness :
    (getOp (setOp (initCache Nat 1000 100) "k" 42 5) "k" (5 + 999)).1 = some 42
    ∧ (getOp (setOp (initCache Nat 1000 100) "k" 42 5) "k" (5 + 1001)).1 = none := by
  have h := (cache_get_spec (initCache Nat 1000 100) "k" 0 42 5).2.2 rfl
  exact ⟨h.1, h.2⟩

/-! ## C7: eviction picks the oldest-by-insertion entry -/

/-- The fold of `evictOldest` returns a timestamp no larger than its seed and
than every scanned entry's timestamp. -/
lemma findOldestFrom_min {V : Type} (k : String) (ts : Nat)
    (l : List (String × CacheEntry V)) :
    (findOldestFrom k ts l).2 ≤ ts
    ∧ ∀ kv ∈ l, (findOldestFrom k ts l).2 ≤ kv.2.timestamp := by
  induction l generalizing k ts with
  | nil => exact ⟨le_refl ts, by simp⟩
  | cons kv rest ih =>
    by_cases h : kv.2.timestamp < ts
    · have := ih kv.1 kv.2.timestamp
      refine ⟨by simp only [findOldestFrom, h, if_true]; omega, ?_⟩
      intro kv' hkv'
      rcases List.mem_cons.mp hkv' with rfl | hmem
      · simp only [findOldestFrom, h, if_true]
        exact this.1
      · simp only [findOldestFrom, h, if_true]
        exact this.2 kv' hmem
    · have := ih k ts
      refine ⟨by simp only [findOldestFrom, h, if_false]; exact this.1, ?_⟩
      intro kv' hkv'
      rcases List.mem_cons.mp hkv' with rfl | hmem
      · simp only [findOldestFrom, h, if_false]
        omega
      · simp only [findOldestFrom, h, if_false]
        exact this.2 kv' hmem

/-- The fold of `evictOldest` returns its seed or a scanned entry. -/
lemma findOldestFrom_mem {V : Type} (k : String) (ts : Nat)
    (l : List (String × CacheEntry V)) :
    findOldestFrom k ts l = (k, ts)
    ∨ ∃ kv ∈ l, findOldestFrom k ts l = (kv.1, kv.2.timestamp) := by
  induction l generalizing k ts with
  | nil => exact Or.inl rfl
  | cons kv rest ih =>
    by_cases h : kv.2.timestamp < ts
    · simp only [findOldestFrom, h, if_true]
      rcases ih kv.1 kv.2.timestamp with heq | ⟨kv', hmem, heq⟩
      · exact Or.inr ⟨kv, List.mem_cons_self kv rest, heq⟩
      · exact Or.inr ⟨kv', List.mem_cons_of_mem kv hmem, heq⟩
    · simp only [findOldestFrom, h, if_false]
      rcases ih k ts with heq | ⟨kv', hmem, heq⟩
      · exact Or.inl heq
      · exact Or.inr ⟨kv', List.mem_cons_of_mem kv hmem, heq⟩

/-- On a nonempty map, `findOldest` returns a key present in the map whose
timestamp is minimal among all entries. -/
lemma findOldest_spec {V : Type} (l : List (String × CacheEntry V)) (hne : l ≠ []) :
    ∃ ko ts, findOldest l = some (ko, ts)
      ∧ (∃ e : CacheEntry V, (ko, e) ∈ l ∧ e.timestamp = ts)
      ∧ ∀ kv ∈ l, ts ≤ kv.2.timestamp := by
  cases l with
  | nil => exact absurd rfl hne
  | cons kv rest =>
    have hmin := findOldestFrom_min kv.1 kv.2.timestamp rest
    have hmem := findOldestFrom_mem kv.1 kv.2.timestamp rest
    refine ⟨(findOldestFrom kv.1 kv.2.timestamp rest).1,
            (findOldestFrom kv.1 kv.2.timestamp rest).2, by simp [findOldest], ?_, ?_⟩
    · rcases hmem with heq | ⟨kv', hmem', heq⟩
      · exact ⟨kv.2, by rw [heq]; exact ⟨List.mem_cons_self kv rest, rfl⟩⟩
      · exact ⟨kv'.2, by rw [heq]; exact ⟨List.mem_cons_of_mem kv hmem', rfl⟩⟩
    · intro kv' hkv'
      rcases List.mem_cons.mp hkv' with rfl | hmem'
      · exact hmin.1
      · exact hmin.2 kv' hmem'

/-- With unique keys, membership determines the lookup result. -/
lemma lookup_of_mem_nodup {V : Type} (l : List (String × CacheEntry V))
    (hnd : (l.map Prod.fst).Nodup) (kv : String × CacheEntry V) (h : kv ∈ l) :
    lookupKey kv.1 l = some kv.2 := by
  induction l with
  | nil => simp at h
  | cons hd rest ih =>
    rcases List.mem_cons.mp h with rfl | hmem
    · simp [lookupKey]
    · have hne : hd.1 ≠ kv.1 := by
        intro heq
        have : kv.1 ∈ rest.map Prod.fst := List.mem_map_of_mem Prod.fst hmem
        simp only [List.map_cons, List.nodup_cons] at hnd
        exact hnd.1 (heq ▸ this)
      simp only [lookupKey, hne, if_false]
      exact ih (by simp only [List.map_cons, List.nodup_cons] at hnd; exact hnd.2) hmem

/-- C7.  `set` on a cache at capacity evicts exactly the entry with the
smallest `insertedAt` timestamp — oldest by insertion, regardless of hit
counts — and then inserts the new entry with `timestamp = now` and
`hits = 0`. -/
theorem cache_set_evicts_oldest {V : Type} (st : CacheState V) (k : String)
    (v : V) (now : Nat) (hnd : (st.entries.map Prod.fst).Nodup)
    (hcap : st.entries.length ≥ st.maxSize) (hne : st.entries ≠ []) :
    ∃ ko ts,
      findOldest st.entries = some (ko, ts)
      ∧ (∃ e : CacheEntry V, (ko, e) ∈ st.entries ∧ e.timestamp = ts
          ∧ lookupKey ko st.entries = some e)
      ∧ (∀ kv ∈ st.entries, ts ≤ kv.2.timestamp)
      ∧ (setOp st k v now).entries =
          setKey k { value := v, timestamp := now, hits := 0 }
            (eraseKey ko st.entries)
      ∧ lookupKey k (setOp st k v now).entries =
          some { value := v, timestamp := now, hits := 0 } := by
  obtain ⟨ko, ts, hfind, ⟨e, hmem, hts⟩, hmin⟩ := findOldest_spec st.entries hne
  refine ⟨ko, ts, hfind, ⟨e, hmem, hts, lookup_of_mem_nodup _ hnd _ hmem⟩, hmin, ?_,
    lookup_setOp st k v now⟩
  simp [setOp, hcap, evictOldest, hfind]

/-- The five concrete entries of the C7 witness: distinct timestamps, and the
minimal timestamp (10) sits on key `"b"`, which also has the most hits. -/
def fiveEntries : List (String × CacheEntry Nat) :=
  [("a", ⟨1, 50, 0⟩), ("b", ⟨2, 10, 7⟩), ("c", ⟨3, 30, 0⟩),
   ("d", ⟨4, 20, 0⟩), ("e", ⟨5, 40, 1⟩)]

/-- Witness for `cache_set_evicts_oldest`: inserting a 6th entry into a full
capacity-5 cache. -/
theorem cache_set_evicts_oldest_witness :
    ∃ ko ts,
      findOldest fiveEntries = some (ko, ts)
      ∧ (∃ e : CacheEntry Nat, (ko, e) ∈ fiveEntries ∧ e.timestamp = ts
          ∧ lookupKey ko fiveEntries = some e)
      ∧ (∀ kv ∈ fiveEntries, ts ≤ kv.2.timestamp)
      ∧ (setOp ⟨fiveEntries, 1000, 5, 0, 0⟩ "f" 6 100).entries =
          setKey "f" { value := 6, timestamp := 100, hits := 0 }
            (eraseKey ko fiveEntries)
      ∧ lookupKey "f" (setOp ⟨fiveEntries, 1000, 5, 0, 0⟩ "f" 6 100).entries =
          some { value := 6, timestamp := 100, hits := 0 } :=
  cache_set_evicts_oldest ⟨fiveEntries, 1000, 5, 0, 0⟩ "f" 6 100
    (by decide) (by decide) (by decide)

/-! ## C10: the capacity invariant -/

/-- `setKey` grows the map by at most one entry. -/
lemma setKey_length_le {V : Type} (k : String) (e : CacheEntry V)
    (l : List (String × CacheEntry V)) : (setKey k e l).length ≤ l.length + 1 := by
  induction l with
  | nil => simp [setKey]
  | cons kv rest ih =>
    by_cases h : kv.1 = k
    · simp [setKey, h]
    · simp only [setKey, h, if_false, List.length_cons]
      omega

/-- `eraseKey` never grows the map. -/
lemma eraseKey_length_le {V : Type} (k : String) (l : List (String × CacheEntry V)) :
    (eraseKey k l).length ≤ l.length := by
  induction l with
  | nil => simp [eraseKey]
  | cons kv rest ih =>
    by_cases h : kv.1 = k
    · simp [eraseKey, h]
    · simp only [eraseKey, h, if_false, List.length_cons]
      omega

/-- Erasing a present key removes exactly one entry. -/
lemma eraseKey_length_of_mem {V : Type} (k : String)
    (l : List (String × CacheEntry V)) (h : k ∈ l.map Prod.fst) :
    (eraseKey k l).length + 1 = l.length := by
  induction l with
  | nil => simp at h
  | cons kv rest ih =>
    by_cases hk : kv.1 = k
    · simp [eraseKey, hk]
    · have hmem : k ∈ rest.map Prod.fst := by
        rcases List.mem_map.mp h with ⟨kv', hkv', heq⟩
        rcases List.mem_cons.mp hkv' with rfl | hkv'
        · exact absurd heq hk
        · exact heq ▸ List.mem_map_of_mem Prod.fst hkv'
      simp only [eraseKey, hk, if_false, List.length_cons]
      rw [← ih hmem]

/-- `bumpHits` preserves the number of entries. -/
lemma bumpHits_length {V : Type} (k : String) (l : List (String × CacheEntry V)) :
    (bumpHits k l).length = l.length := by
  induction l with
  | nil => rfl
  | cons kv rest ih =>
    by_cases h : kv.1 = k <;> simp [bumpHits, h, ih]

/-- Every operation leaves the configured capacity unchanged. -/
lemma applyOp_maxSize {V : Type} (st : CacheState V) (op : CacheOp V) :
    (applyOp st op).maxSize = st.maxSize := by
  cases op with
  | get k now =>
    show ((getOp st k now).2).maxSize = st.maxSize
    unfold getOp
    split
    · rfl
    · split <;> rfl
  | set k v now => exact setOp_maxSize st k v now
  | has k now =>
    show ((hasOp st k now).2).maxSize = st.maxSize
    unfold hasOp
    split
    · rfl
    · split <;> rfl
  | cleanup now => rfl
  | clear => rfl

/-- One step of the capacity invariant: if the capacity is at least 1 and the
map is within capacity, it stays within capacity after any operation (the
`set` case relies on eviction removing a genuinely present entry first). -/
lemma applyOp_capacity {V : Type} (st : CacheState V) (op : CacheOp V)
    (hms : 1 ≤ st.maxSize) (hle : st.entries.length ≤ st.maxSize) :
    (applyOp st op).entries.length ≤ st.maxSize := by
  cases op with
  | get k now =>
    show ((getOp st k now).2).entries.length ≤ st.maxSize
    unfold getOp
    split
    · exact hle
    · split
      · simpa using le_trans (eraseKey_length_le k st.entries) hle
      · simpa [bumpHits_length] using hle
  | set k v now =>
    show (setOp st k v now).entries.length ≤ st.maxSize
    simp only [setOp]
    by_cases hcap : st.entries.length ≥ st.maxSize
    · have hne : st.entries ≠ [] := by
        intro hnil
        rw [hnil] at hcap
        simp at hcap
        omega
      obtain ⟨ko, ts, hfind, ⟨e, hmem, _⟩, _⟩ := findOldest_spec st.entries hne
      have hkey : ko ∈ st.entries.map Prod.fst := by
        exact List.mem_map.mpr ⟨(ko, e), hmem, rfl⟩
      have herase := eraseKey_length_of_mem ko st.entries hkey
      have hset := setKey_length_le k
        { value := v, timestamp := now, hits := 0 } (eraseKey ko st.entries)
      simp only [hcap, if_true, evictOldest, hfind]
      omega
    · have hset := setKey_length_le k
        { value := v, timestamp := now, hits := 0 } st.entries
      simp only [hcap, if_false]
      omega
  | has k now =>
    show ((hasOp st k now).2).entries.length ≤ st.maxSize
    unfold hasOp
    split
    · exact hle
    · split
      · simpa using le_trans (eraseKey_length_le k st.entries) hle
      · exact hle
  | cleanup now =>
    show ((cleanupOp st now).2).entries.length ≤ st.maxSize
    simp only [cleanupOp]
    exact le_trans (List.length_filter_le _ st.entries) hle
  | clear =>
    show (clearOp st).entries.length ≤ st.maxSize
    simp only [clearOp, List.length_nil]
    omega

/-- C10.  Capacity invariant: starting from a freshly constructed cache with
capacity `maxSize ≥ 1`, no finite sequence of `get`, `set`, `has`, `cleanup`
and `clear` operations can push the number of stored entries above
`maxSize`; and (edge case) a `set` of an already-present key on a cache at
capacity can shrink the cache, because eviction runs before the overwrite. -/
theorem cache_capacity_invariant {V : Type} (ttl maxSize : Nat)
    (h1 : 1 ≤ maxSize) (ops : List (CacheOp V)) :
    (runOps (initCache V ttl maxSize) ops).entries.length ≤ maxSize
    ∧ ∃ (st : CacheState Nat) (k : String) (v now : Nat),
        (st.entries.map Prod.fst).Nodup ∧ st.entries.length = st.maxSize
        ∧ k ∈ st.entries.map Prod.fst
        ∧ (setOp st k v now).entries.length < st.entries.length := by
  constructor
  · have main : ∀ (ops : List (CacheOp V)) (st : CacheState V),
        1 ≤ st.maxSize → st.entries.length ≤ st.maxSize →
        (runOps st ops).entries.length ≤ st.maxSize := by
      intro ops
      induction ops with
      | nil => intro st _ hle; exact hle
      | cons op rest ih =>
        intro st hms hle
        have hmax := applyOp_maxSize st op
        have hstep := applyOp_capacity st op hms hle
        have := ih (applyOp st op) (by omega) (by omega)
        simpa [runOps, hmax] using this
    exact main ops (initCache V ttl maxSize) h1 (by simp [initCache])
  · refine ⟨⟨[("a", ⟨0, 0, 0⟩), ("k", ⟨0, 1, 0⟩)], 1000, 2, 0, 0⟩, "k", 7, 5,
      by decide, by decide, by decide, by decide⟩

/-- Witness for `cache_capacity_invariant`: three inserts into a capacity-1
cache leave a single entry. -/
theorem cache_capacity_invariant_witness :
    (runOps (initCache Nat 1000 1)
        [CacheOp.set "a" 1 0, CacheOp.set "b" 2 1, CacheOp.set "c" 3 2]).entries.length
      ≤ 1 :=
  (cache_capacity_invariant 1000 1 (by decide)
    [CacheOp.set "a" 1 0, CacheOp.set "b" 2 1, CacheOp.set "c" 3 2]).1

/-! ## `SymlinkTracker.checkAndMark`

The filesystem is an oracle: `lstat` yields `none` exactly when the
JavaScript call throws (the `try { … } catch { return false }` around it),
and likewise `realpath` (`catch { return false }` around the symlink
resolution).  The function below is total — every error path returns
`false` — which models "never propagates an exception". -/

/-- The fields of `fs.Stats` that `checkAndMark` reads. -/
structure Stat where
  dev : Nat
  ino : Nat
  isSymbolicLink : Bool
deriving DecidableEq, Repr

/-- The filesystem oracle: `none` models a thrown error. -/
structure FS where
  lstat : String → Option Stat
  realpath : String → Option String

/-- The private state of a `SymlinkTracker`: the visited `dev:ino` keys and
the visited resolved real paths (JavaScript `Set`s, modelled as lists with
membership). -/
structure Tracker where
  visitedInodes : List String
  visitedPaths : List String
deriving DecidableEq, Repr

/-- `createSymlinkTracker()` / a freshly reset tracker. -/
def emptyTracker : Tracker := ⟨[], []⟩

/-- The `` `${stats.dev}:${stats.ino}` `` identity key. -/
def inodeKey (st : Stat) : String :=
  String.mk (natDigits st.dev) ++ ":" ++ String.mk (natDigits st.ino)

/-- `SymlinkTracker.checkAndMark(filePath)`: `false` when `lstat` fails, when
the `dev:ino` identity was already visited, when a symlink's `realpath` fails
or resolves to an already-visited path; otherwise `true`, recording the
identity (and, for symlinks, the resolved path). -/
def checkAndMark (fs : FS) (tr : Tracker) (filePath : String) : Bool × Tracker :=
  match fs.lstat filePath with
  | none => (false, tr)
  | some stats =>
    if inodeKey stats ∈ tr.visitedInodes then (false, tr)
    else
      let tr1 : Tracker := { tr with visitedInodes := inodeKey stats :: tr.visitedInodes }
      if stats.isSymbolicLink then
        match fs.realpath filePath with
        | none => (false, tr1)
        | some rp =>
          if rp ∈ tr1.visitedPaths then (false, tr1)
          else (true, { tr1 with visitedPaths := rp :: tr1.visitedPaths })
      else (true, tr1)

/-- C8.  `checkAndMark` is total (it is a Lean function into
`Bool × Tracker`; every JavaScript error path is a `catch` that returns
`false`), and: a failed `lstat` returns `false` without changes; an
already-visited `dev:ino` identity returns `false`; a symlink whose
`realpath` fails, or resolves to an already-visited path, returns `false`;
a first call on an unvisited resolvable path returns `true`; in every case
where `lstat` succeeds on an unvisited identity the identity is recorded, so
a subsequent call on any path resolving to the same `dev:ino` pair returns
`false`. -/
theorem checkAndMark_spec (fs : FS) (tr : Tracker) (p : String) :
    (fs.lstat p = none → checkAndMark fs tr p = (false, tr))
    ∧ (∀ stats, fs.lstat p = some stats → inodeKey stats ∈ tr.visitedInodes →
        checkAndMark fs tr p = (false, tr))
    ∧ (∀ stats, fs.lstat p = some stats → inodeKey stats ∉ tr.visitedInodes →
        stats.isSymbolicLink = true → fs.realpath p = none →
        checkAndMark fs tr p =
          (false, { tr with visitedInodes := inodeKey stats :: tr.visitedInodes }))
    ∧ (∀ stats rp, fs.lstat p = some stats → inodeKey stats ∉ tr.visitedInodes →
        stats.isSymbolicLink = true → fs.realpath p = some rp →
        rp ∈ tr.visitedPaths →
        checkAndMark fs tr p =
          (false, { tr with visitedInodes := inodeKey stats :: tr.visitedInodes }))
    ∧ (∀ stats, fs.lstat p = some stats → inodeKey stats ∉ tr.visitedInodes →
        stats.isSymbolicLink = false →
        checkAndMark fs tr p =
          (true, { tr with visitedInodes := inodeKey stats :: tr.visitedInodes }))
    ∧ (∀ stats rp, fs.lstat p = some stats → inodeKey stats ∉ tr.visitedInodes →
        stats.isSymbolicLink = true → fs.realpath p = some rp →
        rp ∉ tr.visitedPaths →
        checkAndMark fs tr p =
          (true, { visitedInodes := inodeKey stats :: tr.visitedInodes,
                   visitedPaths := rp :: tr.visitedPaths }))
    ∧ (∀ stats, fs.lstat p = some stats → inodeKey stats ∉ tr.visitedInodes →
        inodeKey stats ∈ (checkAndMark fs tr p).2.visitedInodes)
    ∧ (∀ stats p2 stats2, fs.lstat p = some stats →
        inodeKey stats ∉ tr.visitedInodes →
        fs.lstat p2 = some stats2 → inodeKey stats2 = inodeKey stats →
        (checkAndMark fs (checkAndMark fs tr p).2 p2).1 = false) := by
  refine ⟨?_, ?_, ?_, ?_, ?_, ?_, ?_, ?_⟩
  · intro h
    simp [checkAndMark, h]
  · intro stats h hvis
    simp [checkAndMark, h, hvis]
  · intro stats h hvis hsym hrp
    simp [checkAndMark, h, hvis, hsym, hrp]
  · intro stats rp h hvis hsym hrp hvp
    simp [checkAndMark, h, hvis, hsym, hrp, hvp]
  · intro stats h hvis hsym
    simp [checkAndMark, h, hvis, hsym]
  · intro stats rp h hvis hsym hrp hvp
    simp [checkAndMark, h, hvis, hsym, hrp, hvp]
  · intro stats h hvis
    simp only [checkAndMark, h, hvis, if_false]
    by_cases hsym : stats.isSymbolicLink
    · cases hrp : fs.realpath p with
      | none => simp [hsym, hrp]
      | some rp =>
        by_cases hvp : rp ∈ tr.visitedPaths <;> simp [hsym, hrp, hvp]
    · simp [hsym]
  · intro stats p2 stats2 h hvis h2 hkey
    have hmark : inodeKey stats ∈ (checkAndMark fs tr p).2.visitedInodes := by
      simp only [checkAndMark, h, hvis, if_false]
      by_cases hsym : stats.isSymbolicLink
      · cases hrp : fs.realpath p with
        | none => simp [hsym, hrp]
        | some rp =>
          by_cases hvp : rp ∈ tr.visitedPaths <;> simp [hsym, hrp, hvp]
      · simp [hsym]
    set tr' := (checkAndMark fs tr p).2 with htr'
    clear_value tr'
    simp [checkAndMark, h2, hkey, hmark]

/-- A filesystem with a directory `A`, a symlink `A/link` back into `A`, and
a hard-link-style alias `B` with the same `dev:ino` identity as `A`. -/
def loopFS : FS :=
  { lstat := fun p =>
      if p = "A" then some ⟨1, 100, false⟩
      else if p = "A/link" then some ⟨1, 200, true⟩
      else if p = "B" then some ⟨1, 100, false⟩
      else none
    realpath := fun p => if p = "A/link" then some "A" else none }

/-- Witness for `checkAndMark_spec`: on the loop filesystem, the first visit
of `A` succeeds and a subsequent call on `B` — which resolves to the same
`dev:ino` pair `1:100` — returns `false`; a dangling path also returns
`false`. -/
theorem checkAndMark_spec_witness :
    (checkAndMark loopFS emptyTracker "A").1 = true
    ∧ (checkAndMark loopFS (checkAndMark loopFS emptyTracker "A").2 "B").1 = false
    ∧ checkAndMark loopFS emptyTracker "dangling" = (false, emptyTracker) := by
  have h := checkAndMark_spec loopFS emptyTracker "A"
  refine ⟨?_, ?_, ?_⟩
  · have := h.2.2.2.2.1 ⟨1, 100, false⟩ (by decide) (by decide) (by decide)
    rw [this]
  · exact h.2.2.2.2.2.2.2 ⟨1, 100, false⟩ "B" ⟨1, 100, false⟩
      (by decide) (by decide) (by decide) (by decide)
  · exact (checkAndMark_spec loopFS emptyTracker "dangling").1 (by decide)

/-! ## `generateZeroResultSuggestions`

All regular-expression tests of the source are mechanical character scans
and are embedded as such.  `\\w` is `[A-Za-z0-9_]`, `[A-Z]`/`[a-z]` the ASCII
ranges, as in JavaScript.  The two brace characters are written with their
`\x7b`/`\x7d` escapes. -/

/-- `type` of a `QuerySuggestion`. -/
inductive SuggestionType where
  | simplified | fuzzy | alternative | hint
deriving DecidableEq, Repr

/-- `QuerySuggestion` from the suggestions module. -/
structure QuerySuggestion where
  type : SuggestionType
  message : String
  suggestedQuery : Option String
deriving DecidableEq, Repr

/-- The tool argument of `generateZeroResultSuggestions`. -/
inductive SearchTool where
  | search_content | search_files | fuzzy_find
deriving DecidableEq, Repr

/-- JavaScript `String.prototype.trim()`. -/
def jsTrim (s : String) : String :=
  ⟨((s.data.dropWhile Char.isWhitespace).reverse.dropWhile Char.isWhitespace).reverse⟩

/-- `query.split('|')` on the character list: split at every pipe. -/
def splitOnPipeAux : List Char → List (List Char)
  | [] => [[]]
  | c :: rest =>
    if c = '|' then [] :: splitOnPipeAux rest
    else
      match splitOnPipeAux rest with
      | [] => [[c]]
      | p :: ps => (c :: p) :: ps

/-- `query.split('|')`. -/
def splitPipe (s : String) : List String := (splitOnPipeAux s.data).map String.mk

/-- `parts.reduce((a, b) => a.length < b.length ? a : b)`: keep the running
value unless the next part is strictly shorter or ties (a tie moves to the
later part, exactly as the source conditional does). -/
def reduceShortest : String → List String → String
  | a, [] => a
  | a, b :: rest => reduceShortest (if a.data.length < b.data.length then a else b) rest

/-- `query.replace(/\.\*/g, ' ')`: replace every literal `.*` with a space,
left to right, non-overlapping. -/
def replaceDotStar : List Char → List Char
  | '.' :: '*' :: rest => ' ' :: replaceDotStar rest
  | c :: rest => c :: replaceDotStar rest
  | [] => []

/-- `.replace(/\s+/g, ' ')`: collapse every whitespace run to one space. -/
def collapseWS : List Char → List Char
  | [] => []
  | [c] => if c.isWhitespace then [' '] else [c]
  | c :: d :: rest =>
    if c.isWhitespace ∧ d.isWhitespace then collapseWS (d :: rest)
    else (if c.isWhitespace then ' ' else c) :: collapseWS (d :: rest)

/-- The character class `[.()[\]\x7b\x7d+*?^$|]` of the escape-stripping
regexes. -/
def isSpecialChar (c : Char) : Bool :=
  c = '.' ∨ c = '(' ∨ c = ')' ∨ c = '[' ∨ c = ']' ∨ c = '\x7b' ∨ c = '\x7d'
    ∨ c = '+' ∨ c = '*' ∨ c = '?' ∨ c = '^' ∨ c = '$' ∨ c = '|'

/-- `/\\[.()[\]\x7b\x7d+*?^$|]/.test(query)`: a backslash followed by a
special character occurs somewhere. -/
def hasEscapedSpecial : List Char → Bool
  | '\\' :: c :: rest => isSpecialChar c || hasEscapedSpecial (c :: rest)
  | _ :: rest => hasEscapedSpecial rest
  | [] => false

/-- `query.replace(/\\([.()[\]\x7b\x7d+*?^$|])/g, '$1')`: drop each backslash
that precedes a special character, left to right. -/
def unescapeSpecials : List Char → List Char
  | '\\' :: c :: rest =>
    if isSpecialChar c then c :: unescapeSpecials rest
    else '\\' :: unescapeSpecials (c :: rest)
  | c :: rest => c :: unescapeSpecials rest
  | [] => []

/-- `haystack.includes(pat)` on character lists. -/
def containsSub (pat : List Char) : List Char → Bool
  | [] => pat.isEmpty
  | c :: rest => pat.isPrefixOf (c :: rest) || containsSub pat rest

/-- JavaScript `\w`: `[A-Za-z0-9_]`. -/
def isWordChar (c : Char) : Bool :=
  ('a' ≤ c ∧ c ≤ 'z') ∨ ('A' ≤ c ∧ c ≤ 'Z') ∨ ('0' ≤ c ∧ c ≤ '9') ∨ c = '_'

/-- `/\w+\.\w+$/.test(query)`: the string ends in word characters preceded
by a dot preceded by a word character. -/
def endsWordDotWord (l : List Char) : Bool :=
  let r := l.reverse
  (!(r.takeWhile isWordChar).isEmpty) &&
    (match r.dropWhile isWordChar with
     | '.' :: c :: _ => isWordChar c
     | _ => false)

/-- `/\w+pat/.test(query)`: somewhere a word character is immediately
followed by the literal `pat`. -/
def containsWordBefore (pat : List Char) : List Char → Bool
  | [] => false
  | c :: rest => (isWordChar c && pat.isPrefixOf rest) || containsWordBefore pat rest

/-- `query.replace(typo, correct)`: replace the first occurrence only (the
pattern is a plain string, not a global regex). -/
def replaceFirst (pat rep : List Char) : List Char → List Char
  | [] => []
  | c :: rest =>
    if pat.isPrefixOf (c :: rest) then rep ++ (c :: rest).drop pat.length
    else c :: replaceFirst pat rep rest

/-- The OR-pattern branch of the `search_content` case. -/
def orSuggestions (query : String) : List QuerySuggestion :=
  if query.data.contains '|' then
    let parts := (splitPipe query).map jsTrim
    match parts with
    | [] => []
    | p0 :: rest =>
      let simplest := reduceShortest p0 rest
      { type := .simplified
        message := "Try searching for just \"" ++ simplest ++ "\" instead of the OR pattern"
        suggestedQuery := some simplest } ::
      (if parts.length ≤ 3 then
        [{ type := .hint
           message := "Consider searching for each term separately: " ++
             String.intercalate ", " (parts.map (fun p => "\"" ++ p ++ "\""))
           suggestedQuery := none }]
       else [])
  else []

/-- The wildcard-simplification branch of the `search_content` case. -/
def wildcardSuggestions (query : String) : List QuerySuggestion :=
  if containsSub ['.', '*'] query.data then
    let simpler := jsTrim ⟨collapseWS (replaceDotStar query.data)⟩
    if simpler ≠ query ∧ simpler.data.length > 2 then
      [{ type := .simplified
         message := "Try a simpler search without wildcards: \"" ++ simpler ++ "\""
         suggestedQuery := some simpler }]
    else []
  else []

/-- The escaped-characters branch of the `search_content` case. -/
def escapeSuggestions (query : String) : List QuerySuggestion :=
  if hasEscapedSpecial query.data then
    [{ type := .alternative
       message := "If searching for literal text, try: \"" ++ ⟨unescapeSpecials query.data⟩ ++ "\""
       suggestedQuery := some ⟨unescapeSpecials query.data⟩ }]
  else []

/-- The case-sensitivity branch of the `search_content` case. -/
def caseSuggestions (query : String) : List QuerySuggestion :=
  if (query.data.any fun c => 'A' ≤ c ∧ c ≤ 'Z') ∧
     (query.data.any fun c => 'a' ≤ c ∧ c ≤ 'z') then
    [{ type := .alternative
       message := "Note: Search is case-sensitive when query has uppercase. Try lowercase: \""
         ++ ⟨query.data.map Char.toLower⟩ ++ "\""
       suggestedQuery := some ⟨query.data.map Char.toLower⟩ }]
  else []

/-- The file-name-pattern branch of the `search_content` case. -/
def fileLikeSuggestions (query : String) : List QuerySuggestion :=
  if endsWordDotWord query.data
      || containsWordBefore "Controller".data query.data
      || containsWordBefore "Service".data query.data
      || containsWordBefore "Component".data query.data then
    [{ type := .hint
       message := "If looking for a file by name, try fuzzy_find instead of search_content"
       suggestedQuery := none }]
  else []

/-- The recursive-pattern hint of the `search_files` case. -/
def recursiveHintSuggestions (query : String) : List QuerySuggestion :=
  if ¬(containsSub "**".data query.data) ∧ ¬(query.data.contains '/') then
    [{ type := .hint
       message := "Pattern automatically searches recursively. Make sure extension is correct (e.g., *.ts, *.py)"
       suggestedQuery := none }]
  else []

/-- The `extensionTypos` table, in `Object.entries` (insertion) order. -/
def extensionTypos : List (String × String) :=
  [(".typescript", ".ts"), (".javascript", ".js"), (".python", ".py"),
   (".yml", ".yaml"), (".yaml", ".yml")]

/-- The extension-typo branch of the `search_files` case. -/
def typoSuggestions (query : String) : List QuerySuggestion :=
  extensionTypos.flatMap fun tc =>
    if containsSub tc.1.data query.data then
      [{ type := .alternative
         message := "Did you mean \"" ++ tc.2 ++ "\" instead of \"" ++ tc.1 ++ "\"?"
         suggestedQuery := some ⟨replaceFirst tc.1.data tc.2.data query.data⟩ }]
    else []

/-- `generateZeroResultSuggestions(query, tool)`: the `search_content`
branches, then the `search_files` branches, then a universal hint when
nothing else was suggested. -/
def generateZeroResultSuggestions (query : String) (tool : SearchTool) :
    List QuerySuggestion :=
  let base :=
    (if tool = .search_content then
      orSuggestions query ++ wildcardSuggestions query ++ escapeSuggestions query
        ++ caseSuggestions query ++ fileLikeSuggestions query
     else []) ++
    (if tool = .search_files then
      recursiveHintSuggestions query ++ typoSuggestions query
     else [])
  if base = [] then
    [{ type := .hint
       message := "No matches found. Try: 1) Broader search terms, 2) Different path, 3) Check spelling"
       suggestedQuery := none }]
  else base

/-! ## C9: the OR-pattern suggestions -/

/-- The reduce of the OR branch returns one of its inputs. -/
lemma reduceShortest_mem (a : String) (l : List String) :
    reduceShortest a l ∈ a :: l := by
  induction l generalizing a with
  | nil => simp [reduceShortest]
  | cons b rest ih =>
    simp only [reduceShortest]
    rcases List.mem_cons.mp (ih (if a.data.length < b.data.length then a else b)) with
      heq | hmem
    · rw [heq]
      split
      · exact List.mem_cons_self a (b :: rest)
      · exact List.mem_cons_of_mem a (List.mem_cons_self b rest)
    · exact List.mem_cons_of_mem a (List.mem_cons_of_mem b hmem)

/-- The reduce of the OR branch returns a part of minimal length. -/
lemma reduceShortest_min (a : String) (l : List String) :
    ∀ p ∈ a :: l, (reduceShortest a l).data.length ≤ p.data.length := by
  induction l generalizing a with
  | nil =>
    intro p hp
    rcases List.mem_cons.mp hp with rfl | h
    · simp [reduceShortest]
    · simp at h
  | cons b rest ih =>
    intro p hp
    simp only [reduceShortest]
    have hseed : (reduceShortest (if a.data.length < b.data.length then a else b) rest).data.length
        ≤ (if a.data.length < b.data.length then a else b).data.length :=
      ih _ _ (List.mem_cons_self _ _)
    have hab1 : (if a.data.length < b.data.length then a else b).data.length
        ≤ a.data.length := by
      split <;> omega
    have hab2 : (if a.data.length < b.data.length then a else b).data.length
        ≤ b.data.length := by
      split <;> omega
    rcases List.mem_cons.mp hp with rfl | hp'
    · omega
    rcases List.mem_cons.mp hp' with rfl | hp''
    · omega
    · exact ih _ _ (List.mem_cons_of_mem _ hp'')

/-- Splitting always produces at least one part. -/
lemma splitOnPipeAux_ne_nil (l : List Char) : splitOnPipeAux l ≠ [] := by
  cases l with
  | nil => simp [splitOnPipeAux]
  | cons c rest =>
    simp only [splitOnPipeAux]
    by_cases h : c = '|'
    · simp [h]
    · simp only [h, if_false]
      cases splitOnPipeAux rest <;> simp

/-- C9.  For a `search_content` query containing `|`, the suggestions include
a `simplified` suggestion whose suggested query is a shortest trimmed
alternation part, and, when there are at most 3 parts, also a `hint` listing
every part to be searched individually. -/
theorem zero_result_or_spec (q : String) (hpipe : q.data.contains '|' = true) :
    (∃ best : String,
        ({ type := .simplified,
           message := "Try searching for just \"" ++ best ++ "\" instead of the OR pattern",
           suggestedQuery := some best } : QuerySuggestion)
          ∈ generateZeroResultSuggestions q .search_content
        ∧ best ∈ (splitPipe q).map jsTrim
        ∧ ∀ p ∈ (splitPipe q).map jsTrim, best.data.length ≤ p.data.length)
    ∧ (((splitPipe q).map jsTrim).length ≤ 3 →
        ({ type := .hint,
           message := "Consider searching for each term separately: " ++
             String.intercalate ", "
               (((splitPipe q).map jsTrim).map (fun p => "\"" ++ p ++ "\"")),
           suggestedQuery := none } : QuerySuggestion)
          ∈ generateZeroResultSuggestions q .search_content) := by
  have hne : (splitPipe q).map jsTrim ≠ [] := by
    simp only [splitPipe, List.map_map, ne_eq, List.map_eq_nil_iff]
    exact splitOnPipeAux_ne_nil q.data
  obtain ⟨p0, rest, hparts⟩ := List.exists_cons_of_ne_nil hne
  have hor : orSuggestions q =
      { type := .simplified,
        message := "Try searching for just \"" ++ reduceShortest p0 rest
          ++ "\" instead of the OR pattern",
        suggestedQuery := some (reduceShortest p0 rest) } ::
      (if ((splitPipe q).map jsTrim).length ≤ 3 then
        [{ type := .hint,
           message := "Consider searching for each term separately: " ++
             String.intercalate ", "
               (((splitPipe q).map jsTrim).map (fun p => "\"" ++ p ++ "\"")),
           suggestedQuery := none }]
       else []) := by
    rw [orSuggestions, if_pos hpipe, hparts]
  have hcons : orSuggestions q ≠ [] := by rw [hor]; simp
  have hne2 : orSuggestions q ++ wildcardSuggestions q ++ escapeSuggestions q
      ++ caseSuggestions q ++ fileLikeSuggestions q ≠ [] := by
    intro hnil
    rcases List.append_eq_nil.mp hnil with ⟨h1, _⟩
    rcases List.append_eq_nil.mp h1 with ⟨h2, _⟩
    rcases List.append_eq_nil.mp h2 with ⟨h3, _⟩
    rcases List.append_eq_nil.mp h3 with ⟨h4, _⟩
    exact hcons h4
  have hbase : generateZeroResultSuggestions q .search_content =
      orSuggestions q ++ wildcardSuggestions q ++ escapeSuggestions q
        ++ caseSuggestions q ++ fileLikeSuggestions q := by
    simp only [generateZeroResultSuggestions]
    norm_num
    rw [if_neg (fun hh => hcons hh.1)]
    simp [List.append_assoc]
  constructor
  · refine ⟨reduceShortest p0 rest, ?_, ?_, ?_⟩
    · rw [hbase, hor]
      simp
    · rw [hparts]
      exact reduceShortest_mem p0 rest
    · rw [hparts]
      exact reduceShortest_min p0 rest
  · intro hlen
    have hlen' : (splitPipe q).length ≤ 3 := by simpa using hlen
    rw [hbase, hor]
    simp [hlen, hlen']

/-- Witness for `zero_result_or_spec` at the query of the claim, checking
additionally that the shortest part there is `"foo"`. -/
theorem zero_result_or_spec_witness :
    ((∃ best : String,
        ({ type := .simplified,
           message := "Try searching for just \"" ++ best ++ "\" instead of the OR pattern",
           suggestedQuery := some best } : QuerySuggestion)
          ∈ generateZeroResultSuggestions "foo|barlong|bazz" .search_content
        ∧ best ∈ (splitPipe "foo|barlong|bazz").map jsTrim
        ∧ ∀ p ∈ (splitPipe "foo|barlong|bazz").map jsTrim,
            best.data.length ≤ p.data.length)
      ∧ (((splitPipe "foo|barlong|bazz").map jsTrim).length ≤ 3 →
          ({ type := .hint,
             message := "Consider searching for each term separately: " ++
               String.intercalate ", "
                 (((splitPipe "foo|barlong|bazz").map jsTrim).map
                   (fun p => "\"" ++ p ++ "\"")),
             suggestedQuery := none } : QuerySuggestion)
            ∈ generateZeroResultSuggestions "foo|barlong|bazz" .search_content))
    ∧ ({ type := .simplified,
         message := "Try searching for just \"foo\" instead of the OR pattern",
         suggestedQuery := some "foo" } : QuerySuggestion)
        ∈ generateZeroResultSuggestions "foo|barlong|bazz" .search_content :=
  ⟨zero_result_or_spec "foo|barlong|bazz" (by decide), by decide⟩

/-! ## `QueryCache.generateKey` (`src/utils/cache.ts`)

`generateKey(tool, params)` destructures `reasoning` out of the parameter
object and returns `` `${tool}:${JSON.stringify(rest, Object.keys(rest).sort())}` ``.
The parameter object is modelled as an association list over a JSON value
type; `Object.keys(rest).sort()` is the sorted key list, and passing it to
`JSON.stringify` as the replacer array makes the output list exactly those
keys, in that order, **at every object level** (nested object fields not in
the key list are dropped — the ECMAScript `PropertyList` filter applies to
nested objects too, which matters below).  The serializer is fuel-indexed
(one fuel unit per value level), with fuel `sizeOf v`, which always
dominates the nesting depth, so the definition is structural and
executable. -/

/-- Values storable in a tool-parameter object. -/
inductive JsValue where
  | vStr (s : String)
  | vNum (n : Nat)
  | vBool (b : Bool)
  | vObj (fields : List (String × JsValue))

/-- Primitive (non-object) values. -/
def JsValue.isPrim : JsValue → Bool
  | .vObj _ => false
  | _ => true

/-- Property access on the parameter object. -/
def lookupField (k : String) : List (String × JsValue) → Option JsValue
  | [] => none
  | kv :: rest => if kv.1 = k then some kv.2 else lookupField k rest

/-- The fields actually serialized for an object, per the replacer key list
`ks`: each key of `ks` in order, when present. -/
def orderFields (ks : List String) (fields : List (String × JsValue)) :
    List (String × JsValue) :=
  match ks with
  | [] => []
  | k :: ks' =>
    match lookupField k fields with
    | none => orderFields ks' fields
    | some v => (k, v) :: orderFields ks' fields

/-- The character for a hex digit (`d < 16`), lowercase as `JSON.stringify`
emits it: code point 48 + d below 10, else 87 + d (so 10 maps to `'a'`). -/
def hexChar (d : Nat) : Char :=
  if d < 10 then Char.ofNat (48 + d) else Char.ofNat (87 + d)

/-- JSON escaping of one character, as `JSON.stringify` performs it. -/
def escChar (c : Char) : List Char :=
  if c = '"' then ['\\', '"']
  else if c = '\\' then ['\\', '\\']
  else if c = '\x08' then ['\\', 'b']
  else if c = '\t' then ['\\', 't']
  else if c = '\n' then ['\\', 'n']
  else if c = '\x0c' then ['\\', 'f']
  else if c = '\r' then ['\\', 'r']
  else if c.val < 0x20 then
    ['\\', 'u', '0', '0', hexChar (c.toNat / 16), hexChar (c.toNat % 16)]
  else [c]

/-- JSON escaping of a character sequence. -/
def escStr (s : List Char) : List Char := s.flatMap escChar

/-- A serialized JSON string literal. -/
def serStr (s : List Char) : List Char := '"' :: escStr s ++ ['"']

/-- Serialization of a primitive value (`serF` restricted to primitives;
the `vObj` case is unused). -/
def serPrim : JsValue → List Char
  | .vStr s => serStr s.data
  | .vNum n => natDigits n
  | .vBool b => cond b "true".data "false".data
  | .vObj _ => []

/-- The members of an object — `"key":value` joined by commas — serialized
with a given value serializer. -/
def serMembersWith (ser : JsValue → List Char) :
    List (String × JsValue) → List Char
  | [] => []
  | [(k, v)] => serStr k.data ++ ':' :: ser v
  | (k, v) :: kv :: rest =>
    serStr k.data ++ ':' :: ser v ++ ',' :: serMembersWith ser (kv :: rest)

mutual
/-- Size of a value: one per value level, plus the sizes of object members.
It dominates the nesting depth and serves as serializer fuel. -/
def jsSize : JsValue → Nat
  | .vStr _ => 1
  | .vNum _ => 1
  | .vBool _ => 1
  | .vObj fields => 1 + jsFieldsSize fields

/-- Combined size of an object field list. -/
def jsFieldsSize : List (String × JsValue) → Nat
  | [] => 0
  | kv :: rest => 1 + jsSize kv.2 + jsFieldsSize rest
end

/-- The fuel-indexed serializer implementing `SerializeJSONProperty` with a
`PropertyList` `ks`: strings, numbers, booleans serialize directly, objects
serialize the `ks`-ordered, `ks`-filtered members between braces.  One fuel
unit is spent per value level. -/
def serF : Nat → List String → JsValue → List Char
  | 0, _, _ => []
  | fuel + 1, ks, v =>
    match v with
    | .vStr s => serStr s.data
    | .vNum n => natDigits n
    | .vBool b => cond b "true".data "false".data
    | .vObj fields =>
      '\x7b' :: serMembersWith (serF fuel ks) (orderFields ks fields) ++ ['\x7d']

/-- `JSON.stringify(v, ks)`: the fuel `jsSize v` dominates the value depth. -/
def jsonStringifyWith (ks : List String) (v : JsValue) : String :=
  ⟨serF (jsSize v) ks v⟩

/-- The parameter object with `reasoning` destructured away. -/
def restOf (params : List (String × JsValue)) : List (String × JsValue) :=
  params.filter (fun kv => kv.1 ≠ "reasoning")

/-- JavaScript string comparison (`Array.prototype.sort`'s default for our
keys compares code units; on the scalar-value model this is code-point
lexicographic order). -/
def charListLe : List Char → List Char → Bool
  | [], _ => true
  | _ :: _, [] => false
  | a :: as, b :: bs =>
    if a.toNat = b.toNat then charListLe as bs
    else decide (a.toNat < b.toNat)

/-- The sort order of `Object.keys(rest).sort()` as a relation. -/
def strLeRel (a b : String) : Prop := charListLe a.data b.data = true

instance : DecidableRel strLeRel := fun a b =>
  inferInstanceAs (Decidable (charListLe a.data b.data = true))

/-- `Object.keys(rest).sort()`. -/
def sortedKeysOf (params : List (String × JsValue)) : List String :=
  List.insertionSort strLeRel ((restOf params).map Prod.fst)

/-- `QueryCache.generateKey(tool, params)`. -/
def generateKey (tool : String) (params : List (String × JsValue)) : String :=
  tool ++ ":" ++ jsonStringifyWith (sortedKeysOf params) (.vObj (restOf params))

/-! ## Decimal digits: specification form and parsing -/

/-- Specification form of `natDigits` (recursion on the value; the fuel-based
`natDigitsAux` computes it). -/
def digitsRec (n : Nat) : List Char :=
  if h : n < 10 then [digitChar n]
  else digitsRec (n / 10) ++ [digitChar (n % 10)]
termination_by n
decreasing_by omega

/-- The fuel-based digit loop computes `digitsRec`, given enough fuel. -/
lemma natDigitsAux_eq (fuel : Nat) : ∀ n acc, n < fuel →
    natDigitsAux fuel n acc = digitsRec n ++ acc := by
  induction fuel with
  | zero => omega
  | succ f ih =>
    intro n acc h
    by_cases h10 : n < 10
    · rw [digitsRec]
      simp [natDigitsAux, h10]
    · have hlt : n / 10 < f := by omega
      simp only [natDigitsAux, h10, if_false]
      rw [ih _ _ hlt]
      conv_rhs => rw [digitsRec]
      simp [h10, List.append_assoc]

/-- `natDigits` agrees with its specification form. -/
lemma natDigits_eq (n : Nat) : natDigits n = digitsRec n := by
  have h := natDigitsAux_eq (n + 1) n [] (by omega)
  simpa [natDigits] using h

/-- Digit characters are digits. -/
lemma digitChar_isDigit : ∀ d, d < 10 → (digitChar d).isDigit = true := by decide

/-- Digit characters decode to their digit. -/
lemma digitChar_toNat : ∀ d, d < 10 → (digitChar d).toNat - 48 = d := by decide

/-- Every character of a decimal representation is a digit. -/
lemma digitsRec_digits (n : Nat) : ∀ c ∈ digitsRec n, c.isDigit = true := by
  induction n using Nat.strong_induction_on with
  | _ n ih =>
    by_cases h : n < 10
    · rw [digitsRec]
      simp only [h, dif_pos]
      intro c hc
      simp only [List.mem_singleton] at hc
      exact hc ▸ digitChar_isDigit n h
    · rw [digitsRec]
      simp only [h, dif_neg, not_false_iff]
      intro c hc
      rcases List.mem_append.mp hc with hm | hm
      · exact ih (n / 10) (by omega) c hm
      · simp only [List.mem_singleton] at hm
        exact hm ▸ digitChar_isDigit (n % 10) (by omega)

/-- A decimal representation is nonempty. -/
lemma digitsRec_ne_nil (n : Nat) : digitsRec n ≠ [] := by
  rw [digitsRec]
  by_cases h : n < 10 <;> simp [h]

/-- Decoding a digit string, as the value parser does. -/
def digitsToNat (ds : List Char) : Nat :=
  ds.foldl (fun acc c => acc * 10 + (c.toNat - 48)) 0

/-- Decoding inverts the decimal representation. -/
lemma digitsToNat_digitsRec (n : Nat) : digitsToNat (digitsRec n) = n := by
  induction n using Nat.strong_induction_on with
  | _ n ih =>
    by_cases h : n < 10
    · rw [digitsRec]
      simp only [h, dif_pos]
      simp [digitsToNat, digitChar_toNat n h]
    · rw [digitsRec]
      simp only [h, dif_neg, not_false_iff]
      have hfold : digitsToNat (digitsRec (n / 10) ++ [digitChar (n % 10)])
          = digitsToNat (digitsRec (n / 10)) * 10 + ((digitChar (n % 10)).toNat - 48) := by
        simp [digitsToNat, List.foldl_append]
      rw [hfold, ih (n / 10) (by omega), digitChar_toNat (n % 10) (by omega)]
      omega

/-- Greedy digit scan: the digits consumed and the remainder. -/
def parseDigits : List Char → List Char × List Char
  | [] => ([], [])
  | c :: rest =>
    if c.isDigit then
      ((c :: (parseDigits rest).1), (parseDigits rest).2)
    else ([], c :: rest)

/-- The digit scan consumes exactly a digit prefix when the remainder does
not begin with a digit. -/
lemma parseDigits_append (ds rest : List Char) (hds : ∀ c ∈ ds, c.isDigit = true)
    (hrest : ∀ c, rest.head? = some c → c.isDigit = false) :
    parseDigits (ds ++ rest) = (ds, rest) := by
  induction ds with
  | nil =>
    cases rest with
    | nil => rfl
    | cons r rrest =>
      have : r.isDigit = false := hrest r rfl
      simp [parseDigits, this]
  | cons c ds' ih =>
    have hc : c.isDigit = true := hds c (List.mem_cons_self c ds')
    have ih' := ih (fun x hx => hds x (List.mem_cons_of_mem c hx))
    simp [parseDigits, hc, ih']

/-! ## Parsing JSON string literals back -/

/-- Hex digit value of a lowercase hex character. -/
def hexVal? (c : Char) : Option Nat :=
  if c.isDigit then some (c.toNat - 48)
  else if 'a' ≤ c ∧ c ≤ 'f' then some (c.toNat - 87)
  else none

/-- Decoding of a single-character JSON escape. -/
def unesc1? (e : Char) : Option Char :=
  if e = '"' then some '"'
  else if e = '\\' then some '\\'
  else if e = 'b' then some '\x08'
  else if e = 't' then some '\t'
  else if e = 'n' then some '\n'
  else if e = 'f' then some '\x0c'
  else if e = 'r' then some '\r'
  else none

/-- Parse the body of a JSON string literal up to its closing quote,
returning the decoded characters and the input after the quote. -/
def parseStrBody : List Char → Option (List Char × List Char)
  | [] => none
  | c :: rest =>
    if c = '"' then some ([], rest)
    else if c = '\\' then
      match rest with
      | [] => none
      | e :: rest2 =>
        if e = 'u' then
          match rest2 with
          | a :: b :: c2 :: d :: rest3 =>
            match hexVal? a, hexVal? b, hexVal? c2, hexVal? d with
            | some ha, some hb, some hc, some hd =>
              match parseStrBody rest3 with
              | some p => some (Char.ofNat (((ha * 16 + hb) * 16 + hc) * 16 + hd) :: p.1, p.2)
              | none => none
            | _, _, _, _ => none
          | _ => none
        else
          match unesc1? e with
          | some c2 =>
            match parseStrBody rest2 with
            | some p => some (c2 :: p.1, p.2)
            | none => none
          | none => none
    else
      match parseStrBody rest with
      | some p => some (c :: p.1, p.2)
      | none => none

/-- `hexVal?` inverts `hexChar` on hex digit values. -/
lemma hexVal_hexChar : ∀ d, d < 16 → hexVal? (hexChar d) = some d := by decide

/-- Parsing inverts escaping, one string body at a time. -/
lemma parseStrBody_escStr (s : List Char) : ∀ rest,
    parseStrBody (escStr s ++ '"' :: rest) = some (s, rest) := by
  induction s with
  | nil =>
    intro rest
    rw [show escStr [] = [] from rfl, List.nil_append, parseStrBody.eq_def]
    simp
  | cons c cs ih =>
    intro rest
    have hesc : escStr (c :: cs) = escChar c ++ escStr cs := by
      simp [escStr]
    rw [hesc, List.append_assoc]
    by_cases h1 : c = '"'
    · subst h1
      rw [show escChar '"' = ['\\', '"'] from rfl]
      rw [List.cons_append, List.cons_append, parseStrBody.eq_def]
      simp [unesc1?, ih rest]
    · by_cases h2 : c = '\\'
      · subst h2
        rw [show escChar '\\' = ['\\', '\\'] from rfl]
        rw [List.cons_append, List.cons_append, parseStrBody.eq_def]
        simp [unesc1?, ih rest]
      · by_cases h3 : c = '\x08'
        · subst h3
          rw [show escChar '\x08' = ['\\', 'b'] from rfl]
          rw [List.cons_append, List.cons_append, parseStrBody.eq_def]
          simp [unesc1?, ih rest]
        · by_cases h4 : c = '\t'
          · subst h4
            rw [show escChar '\t' = ['\\', 't'] from rfl]
            rw [List.cons_append, List.cons_append, parseStrBody.eq_def]
            simp [unesc1?, ih rest]
          · by_cases h5 : c = '\n'
            · subst h5
              rw [show escChar '\n' = ['\\', 'n'] from rfl]
              rw [List.cons_append, List.cons_append, parseStrBody.eq_def]
              simp [unesc1?, ih rest]
            · by_cases h6 : c = '\x0c'
              · subst h6
                rw [show escChar '\x0c' = ['\\', 'f'] from rfl]
                rw [List.cons_append, List.cons_append, parseStrBody.eq_def]
                simp [unesc1?, ih rest]
              · by_cases h7 : c = '\r'
                · subst h7
                  rw [show escChar '\r' = ['\\', 'r'] from rfl]
                  rw [List.cons_append, List.cons_append, parseStrBody.eq_def]
                  simp [unesc1?, ih rest]
                · by_cases h8 : c.val < 0x20
                  · have hesc8 : escChar c =
                        ['\\', 'u', '0', '0', hexChar (c.toNat / 16), hexChar (c.toNat % 16)] := by
                      rw [escChar]
                      simp [h1, h2, h3, h4, h5, h6, h7, h8]
                    rw [hesc8]
                    have hlt32 : c.toNat < 32 := h8
                    have hhi : c.toNat / 16 < 16 := by omega
                    have hlo : c.toNat % 16 < 16 := by omega
                    have h0 : hexVal? '0' = some 0 := by decide
                    simp only [List.cons_append, List.nil_append]
                    rw [parseStrBody.eq_def]
                    simp [h0, hexVal_hexChar _ hhi, hexVal_hexChar _ hlo, ih rest]
                    rw [show c.toNat / 16 * 16 + c.toNat % 16 = c.toNat from by omega,
                      Char.ofNat_toNat]
                  · have hesc9 : escChar c = [c] := by
                      rw [escChar]
                      simp [h1, h2, h3, h4, h5, h6, h7, h8]
                    rw [hesc9]
                    rw [List.cons_append, List.nil_append, parseStrBody.eq_def]
                    simp [h1, h2, ih rest]

/-! ## Parsing primitive values and object members back -/

/-- Parse one primitive JSON value (string, boolean, or number). -/
def parseVal : List Char → Option (JsValue × List Char)
  | [] => none
  | c :: rest =>
    if c = '"' then
      match parseStrBody rest with
      | some p => some (.vStr ⟨p.1⟩, p.2)
      | none => none
    else if c = 't' then
      match rest with
      | 'r' :: 'u' :: 'e' :: r => some (.vBool true, r)
      | _ => none
    else if c = 'f' then
      match rest with
      | 'a' :: 'l' :: 's' :: 'e' :: r => some (.vBool false, r)
      | _ => none
    else if c.isDigit then
      some (.vNum (digitsToNat (parseDigits (c :: rest)).1), (parseDigits (c :: rest)).2)
    else none

/-- Parsing inverts primitive serialization, provided what follows does not
begin with a digit (inside an object the next character is `,` or the
closing brace). -/
lemma parseVal_serPrim (v : JsValue) (hprim : v.isPrim = true) (rest : List Char)
    (hrest : ∀ c, rest.head? = some c → c.isDigit = false) :
    parseVal (serPrim v ++ rest) = some (v, rest) := by
  cases v with
  | vStr s =>
    have h : serPrim (.vStr s) ++ rest = '"' :: (escStr s.data ++ '"' :: rest) := by
      simp [serPrim, serStr]
    rw [h, parseVal.eq_def]
    simp [parseStrBody_escStr s.data rest]
  | vNum n =>
    have hser : serPrim (.vNum n) = digitsRec n := by
      simp [serPrim, natDigits_eq]
    obtain ⟨d, ds, hcons⟩ : ∃ d ds, digitsRec n = d :: ds := by
      cases hds : digitsRec n with
      | nil => exact absurd hds (digitsRec_ne_nil n)
      | cons d ds => exact ⟨d, ds, rfl⟩
    have hd : d.isDigit = true :=
      digitsRec_digits n d (hcons ▸ List.mem_cons_self d ds)
    have hds : ∀ c ∈ ds, c.isDigit = true := fun c hc =>
      digitsRec_digits n c (hcons ▸ List.mem_cons_of_mem d hc)
    have hne1 : ¬ d = '"' := fun h => by rw [h] at hd; exact absurd hd (by decide)
    have hne2 : ¬ d = 't' := fun h => by rw [h] at hd; exact absurd hd (by decide)
    have hne3 : ¬ d = 'f' := fun h => by rw [h] at hd; exact absurd hd (by decide)
    have hparse : parseDigits ((d :: ds) ++ rest) = (d :: ds, rest) :=
      parseDigits_append (d :: ds) rest
        (fun c hc => (List.mem_cons.mp hc).elim (fun h => h ▸ hd) (hds c)) hrest
    rw [hser, hcons, List.cons_append, parseVal.eq_def]
    simp only [hne1, hne2, hne3, hd, if_false, if_true]
    rw [← List.cons_append, hparse]
    rw [← hcons, digitsToNat_digitsRec]
  | vBool b =>
    cases b with
    | true =>
      have h : serPrim (.vBool true) ++ rest = 't' :: 'r' :: 'u' :: 'e' :: rest := by
        simp [serPrim]
      rw [h, parseVal.eq_def]
      simp
    | false =>
      have h : serPrim (.vBool false) ++ rest = 'f' :: 'a' :: 'l' :: 's' :: 'e' :: rest := by
        simp [serPrim]
      rw [h, parseVal.eq_def]
      simp
  | vObj fields => simp [JsValue.isPrim] at hprim

/-- Parse the members of an object up to the closing brace: `[]` on an
immediate close, else `"key":value` then a comma and more members or the
close. -/
def parseMembers : Nat → List Char → Option (List (String × JsValue) × List Char)
  | _, '\x7d' :: rest => some ([], rest)
  | 0, _ => none
  | fuel + 1, input =>
    match input with
    | '"' :: r1 =>
      match parseStrBody r1 with
      | some kp =>
        match kp.2 with
        | ':' :: r3 =>
          match parseVal r3 with
          | some vp =>
            match vp.2 with
            | ',' :: r5 =>
              match parseMembers fuel r5 with
              | some lp => some ((⟨kp.1⟩, vp.1) :: lp.1, lp.2)
              | none => none
            | '\x7d' :: r5 => some ([(⟨kp.1⟩, vp.1)], r5)
            | _ => none
          | none => none
        | _ => none
      | none => none
    | _ => none

/-- Parsing inverts member serialization for primitive-valued members, with
any fuel exceeding the member count. -/
lemma parseMembers_serMembers : ∀ (l : List (String × JsValue)) (fuel : Nat)
    (rest : List Char), l.length < fuel → (∀ kv ∈ l, kv.2.isPrim = true) →
    parseMembers fuel (serMembersWith serPrim l ++ '\x7d' :: rest) = some (l, rest) := by
  intro l
  induction l with
  | nil =>
    intro fuel rest hfuel hprim
    rw [show serMembersWith serPrim [] = [] from rfl, List.nil_append,
      parseMembers.eq_def]
    cases fuel with
    | zero => omega
    | succ g => simp
  | cons kv tail ih =>
    intro fuel rest hfuel hprim
    obtain ⟨k, v⟩ := kv
    cases fuel with
    | zero => simp at hfuel
    | succ g =>
      have hv : v.isPrim = true := hprim (k, v) (List.mem_cons_self _ _)
      cases tail with
      | nil =>
        have hser : serMembersWith serPrim [(k, v)] ++ '\x7d' :: rest =
            '"' :: (escStr k.data ++ '"' :: (':' :: (serPrim v ++ '\x7d' :: rest))) := by
          simp [serMembersWith, serStr]
        rw [hser, parseMembers.eq_def]
        have hval := parseVal_serPrim v hv ('\x7d' :: rest) (by intro c hc; cases hc; decide)
        simp [parseStrBody_escStr k.data, hval]
      | cons kv2 tail2 =>
        have hser : serMembersWith serPrim ((k, v) :: kv2 :: tail2) ++ '\x7d' :: rest =
            '"' :: (escStr k.data ++ '"' :: (':' :: (serPrim v ++
              ',' :: (serMembersWith serPrim (kv2 :: tail2) ++ '\x7d' :: rest)))) := by
          simp [serMembersWith, serStr]
        rw [hser, parseMembers.eq_def]
        have hval := parseVal_serPrim v hv
          (',' :: (serMembersWith serPrim (kv2 :: tail2) ++ '\x7d' :: rest))
          (by intro c hc; cases hc; decide)
        have hih := ih g rest (by simpa using Nat.lt_of_succ_lt_succ hfuel)
          (fun x hx => hprim x (List.mem_cons_of_mem _ hx))
        simp [parseStrBody_escStr k.data, hval, hih]

/-- With at least one unit of fuel, the serializer agrees with `serPrim` on
primitives. -/
lemma serF_prim (g : Nat) (hg : 1 ≤ g) (ks : List String) (v : JsValue)
    (hv : v.isPrim = true) : serF g ks v = serPrim v := by
  cases g with
  | zero => omega
  | succ g' =>
    cases v with
    | vStr s => rfl
    | vNum n => rfl
    | vBool b => rfl
    | vObj fields => simp [JsValue.isPrim] at hv

/-- Member serialization only looks at the values through the serializer. -/
lemma serMembersWith_congr (f g : JsValue → List Char) :
    ∀ l : List (String × JsValue), (∀ kv ∈ l, f kv.2 = g kv.2) →
    serMembersWith f l = serMembersWith g l := by
  intro l
  induction l with
  | nil => intro _; rfl
  | cons kv tail ih =>
    intro h
    cases tail with
    | nil => simp [serMembersWith, h kv (List.mem_cons_self _ _)]
    | cons kv2 tail2 =>
      have h2 := ih (fun x hx => h x (List.mem_cons_of_mem _ hx))
      simp only [serMembersWith]
      rw [h kv (List.mem_cons_self _ _), h2]

/-! ## The sort order: totality, transitivity, antisymmetry -/

/-- Characters with equal code points are equal. -/
lemma char_toNat_inj {a b : Char} (h : a.toNat = b.toNat) : a = b := by
  rw [← Char.ofNat_toNat a, ← Char.ofNat_toNat b, h]

/-- `charListLe` is total. -/
lemma charListLe_total : ∀ as bs : List Char,
    charListLe as bs = true ∨ charListLe bs as = true := by
  intro as
  induction as with
  | nil => intro bs; left; rfl
  | cons a as' ih =>
    intro bs
    cases bs with
    | nil => right; rfl
    | cons b bs' =>
      simp only [charListLe]
      by_cases heq : a.toNat = b.toNat
      · have heq' : b.toNat = a.toNat := heq.symm
        rw [if_pos heq, if_pos heq']
        exact ih bs'
      · have heq' : ¬ b.toNat = a.toNat := fun h => heq h.symm
        simp only [heq, heq', if_false]
        rcases Nat.lt_or_ge a.toNat b.toNat with h | h
        · left
          simpa using h
        · right
          simp only [decide_eq_true_eq]
          omega

/-- `charListLe` is transitive. -/
lemma charListLe_trans : ∀ as bs cs : List Char, charListLe as bs = true →
    charListLe bs cs = true → charListLe as cs = true := by
  intro as
  induction as with
  | nil => intro bs cs _ _; rfl
  | cons a as' ih =>
    intro bs cs h1 h2
    cases bs with
    | nil => simp [charListLe] at h1
    | cons b bs' =>
      cases cs with
      | nil => simp [charListLe] at h2
      | cons c cs' =>
        simp only [charListLe] at h1 h2 ⊢
        by_cases hab : a.toNat = b.toNat
        · by_cases hbc : b.toNat = c.toNat
          · simp only [hab, if_pos rfl] at h1
            simp only [hbc, if_pos rfl] at h2
            simp only [show a.toNat = c.toNat from hab.trans hbc, if_pos rfl]
            exact ih bs' cs' h1 h2
          · simp only [hbc, if_false] at h2
            have hlt : b.toNat < c.toNat := by simpa using h2
            have hne : ¬ a.toNat = c.toNat := by omega
            simp only [hne, if_false, decide_eq_true_eq]
            omega
        · simp only [hab, if_false] at h1
          have hlt1 : a.toNat < b.toNat := by simpa using h1
          by_cases hbc : b.toNat = c.toNat
          · have hne : ¬ a.toNat = c.toNat := by omega
            simp only [hne, if_false, decide_eq_true_eq]
            omega
          · simp only [hbc, if_false] at h2
            have hlt2 : b.toNat < c.toNat := by simpa using h2
            have hne : ¬ a.toNat = c.toNat := by omega
            simp only [hne, if_false, decide_eq_true_eq]
            omega

/-- `charListLe` is antisymmetric. -/
lemma charListLe_antisymm : ∀ as bs : List Char, charListLe as bs = true →
    charListLe bs as = true → as = bs := by
  intro as
  induction as with
  | nil =>
    intro bs h1 h2
    cases bs with
    | nil => rfl
    | cons b bs' => simp [charListLe] at h2
  | cons a as' ih =>
    intro bs h1 h2
    cases bs with
    | nil => simp [charListLe] at h1
    | cons b bs' =>
      simp only [charListLe] at h1 h2
      by_cases hab : a.toNat = b.toNat
      · have heq : a = b := char_toNat_inj hab
        have hba : b.toNat = a.toNat := hab.symm
        rw [if_pos hab] at h1
        rw [if_pos hba] at h2
        rw [heq, ih bs' h1 h2]
      · have hba : ¬ b.toNat = a.toNat := fun h => hab h.symm
        simp only [hab, hba, if_false, decide_eq_true_eq] at h1 h2
        omega

instance : IsTotal String strLeRel :=
  ⟨fun a b => charListLe_total a.data b.data⟩

instance : IsTrans String strLeRel :=
  ⟨fun a b c h1 h2 => charListLe_trans a.data b.data c.data h1 h2⟩

instance : IsAntisymm String strLeRel :=
  ⟨fun a b h1 h2 => by
    have h := charListLe_antisymm a.data b.data h1 h2
    cases a with
    | mk d1 =>
      cases b with
      | mk d2 =>
        have hd : d1 = d2 := by simpa using h
        rw [hd]⟩

/-! ## Lemmas for key identity and injectivity -/

/-- The field-list size is invariant under permutation (so the serializer
fuel of two reordered parameter objects agrees). -/
lemma jsFieldsSize_perm {l1 l2 : List (String × JsValue)} (h : List.Perm l1 l2) :
    jsFieldsSize l1 = jsFieldsSize l2 := by
  induction h with
  | nil => rfl
  | cons x _ ih => simp [jsFieldsSize, ih]
  | swap x y l => simp [jsFieldsSize]; omega
  | trans _ _ ih1 ih2 => exact ih1.trans ih2

/-- With unique keys, lookups are invariant under permutation. -/
lemma lookupField_perm {l1 l2 : List (String × JsValue)} (h : List.Perm l1 l2) :
    (l1.map Prod.fst).Nodup → ∀ k, lookupField k l1 = lookupField k l2 := by
  induction h with
  | nil => intro _ k; rfl
  | cons x _ ih =>
    intro hnd k
    simp only [List.map_cons, List.nodup_cons] at hnd
    by_cases hx : x.1 = k
    · simp [lookupField, hx]
    · simp [lookupField, hx, ih hnd.2 k]
  | swap x y l =>
    intro hnd k
    simp only [List.map_cons, List.nodup_cons, List.mem_cons] at hnd
    by_cases hy : y.1 = k <;> by_cases hx : x.1 = k
    · exact absurd (hy.trans hx.symm) (fun he => hnd.1 (Or.inl he))
    · simp [lookupField, hy, hx]
    · simp [lookupField, hy, hx]
    · simp [lookupField, hy, hx]
  | trans h1 _ ih1 ih2 =>
    intro hnd k
    exact (ih1 hnd k).trans (ih2 (((h1.map Prod.fst).nodup_iff).mp hnd) k)

/-- A successful lookup is a membership. -/
lemma lookupField_mem : ∀ {l : List (String × JsValue)} {k : String} {v : JsValue},
    lookupField k l = some v → (k, v) ∈ l := by
  intro l
  induction l with
  | nil => intro k v h; simp [lookupField] at h
  | cons kv rest ih =>
    intro k v h
    by_cases hk : kv.1 = k
    · simp only [lookupField, hk, if_true, Option.some.injEq] at h
      subst h
      rw [← hk]
      exact List.mem_cons_self kv rest
    · simp only [lookupField, hk, if_false] at h
      exact List.mem_cons_of_mem kv (ih h)

/-- Lookup fails exactly off the key set. -/
lemma lookupField_eq_none : ∀ {l : List (String × JsValue)} {k : String},
    lookupField k l = none ↔ k ∉ l.map Prod.fst := by
  intro l
  induction l with
  | nil => intro k; simp [lookupField]
  | cons kv rest ih =>
    intro k
    by_cases hk : kv.1 = k
    · simp [lookupField, hk]
    · simp [lookupField, hk, ih, Ne.symm hk]

/-- `orderFields` only looks at the object through its lookups. -/
lemma orderFields_congr (ks : List String) {r1 r2 : List (String × JsValue)}
    (h : ∀ k, lookupField k r1 = lookupField k r2) :
    orderFields ks r1 = orderFields ks r2 := by
  induction ks with
  | nil => rfl
  | cons k ks' ih =>
    simp only [orderFields, h k, ih]

/-- Lookup in the reordered, filtered field list. -/
lemma lookupField_orderFields (ks : List String) (r : List (String × JsValue))
    (hnd : ks.Nodup) (k : String) :
    lookupField k (orderFields ks r) = if k ∈ ks then lookupField k r else none := by
  induction ks with
  | nil => simp [orderFields, lookupField]
  | cons k0 ks' ih =>
    simp only [List.nodup_cons] at hnd
    by_cases hk : k = k0
    · subst hk
      cases hl : lookupField k r with
      | none =>
        simp only [orderFields, hl]
        rw [ih hnd.2]
        simp [hnd.1, hl]
      | some v =>
        simp [orderFields, hl, lookupField]
    · cases hl : lookupField k0 r with
      | none =>
        simp only [orderFields, hl]
        rw [ih hnd.2]
        simp [hk]
      | some v =>
        simp only [orderFields, hl]
        simp only [lookupField, Ne.symm hk, if_false]
        rw [ih hnd.2]
        simp [hk]

/-- Members selected by `orderFields` are members of the object. -/
lemma orderFields_mem {ks : List String} {r : List (String × JsValue)}
    {kv : String × JsValue} (h : kv ∈ orderFields ks r) : kv ∈ r := by
  induction ks with
  | nil => simp [orderFields] at h
  | cons k ks' ih =>
    rw [orderFields] at h
    cases hl : lookupField k r with
    | none =>
      rw [hl] at h
      exact ih h
    | some v =>
      rw [hl] at h
      rcases List.mem_cons.mp h with rfl | hmem
      · exact lookupField_mem hl
      · exact ih hmem

/-- A field list with a member has positive size. -/
lemma jsFieldsSize_pos_of_mem {l : List (String × JsValue)}
    {kv : String × JsValue} (h : kv ∈ l) : 1 ≤ jsFieldsSize l := by
  cases l with
  | nil => simp at h
  | cons kv0 rest => simp [jsFieldsSize]; omega

/-- `restOf` keeps keys unique. -/
lemma restOf_keys_nodup {p : List (String × JsValue)}
    (h : (p.map Prod.fst).Nodup) : ((restOf p).map Prod.fst).Nodup :=
  ((List.filter_sublist p).map Prod.fst).nodup h

/-- Unfolding of the serializer on an object with positive fuel. -/
lemma serF_succ_obj (g : Nat) (ks : List String) (fields : List (String × JsValue)) :
    serF (g + 1) ks (.vObj fields) =
      '\x7b' :: serMembersWith (serF g ks) (orderFields ks fields) ++ ['\x7d'] := rfl

/-- The object size in successor form. -/
lemma jsSize_vObj (fields : List (String × JsValue)) :
    jsSize (.vObj fields) = jsFieldsSize fields + 1 := by
  rw [jsSize]
  omega

/-- Splitting a key at the separating colon is unambiguous when neither tool
name contains a colon. -/
lemma append_colon_inj : ∀ (t1 t2 s1 s2 : List Char), ':' ∉ t1 → ':' ∉ t2 →
    t1 ++ ':' :: s1 = t2 ++ ':' :: s2 → t1 = t2 ∧ s1 = s2 := by
  intro t1
  induction t1 with
  | nil =>
    intro t2 s1 s2 _ hc2 h
    cases t2 with
    | nil => simpa using h
    | cons u t2' =>
      simp only [List.nil_append, List.cons_append, List.cons.injEq] at h
      have hm : ':' ∈ u :: t2' := by
        rw [← h.1]
        exact List.mem_cons_self ':' t2'
      exact absurd hm hc2
  | cons u t1' ih =>
    intro t2 s1 s2 hc1 hc2 h
    cases t2 with
    | nil =>
      simp only [List.nil_append, List.cons_append, List.cons.injEq] at h
      have hm : ':' ∈ u :: t1' := by
        rw [h.1]
        exact List.mem_cons_self ':' t1'
      exact absurd hm hc1
    | cons w t2' =>
      simp only [List.cons_append, List.cons.injEq] at h
      have hrec := ih t2' s1 s2 (fun hm => hc1 (List.mem_cons_of_mem u hm))
        (fun hm => hc2 (List.mem_cons_of_mem w hm)) h.2
      exact ⟨by rw [h.1, hrec.1], hrec.2⟩

/-- The character data of a generated key. -/
lemma generateKey_data (tool : String) (params : List (String × JsValue)) :
    (generateKey tool params).data =
      tool.data ++ ':' ::
        serF (jsSize (.vObj (restOf params))) (sortedKeysOf params)
          (.vObj (restOf params)) := by
  simp [generateKey, jsonStringifyWith, String.data_append]

/-- C5, amended.  First half (as claimed): two parameter objects with unique
keys that differ only in field order or in the `reasoning` field produce the
same cache key.  Second half (restricted): for parameter objects whose
remaining values are primitives (strings, numbers, booleans — no nested
objects) and tool names without `':'` (every tool name in the program is such),
equal keys force equal tools and equal remaining fields; hence any difference
in tool or in a remaining field value yields different keys.  The restriction
to primitive values is forced: the replacer key list strips the fields of
nested object values, which collide (see the counterexample). -/
theorem generateKey_spec :
    (∀ (tool : String) (p1 p2 : List (String × JsValue)),
        (p1.map Prod.fst).Nodup →
        List.Perm (restOf p1) (restOf p2) →
        generateKey tool p1 = generateKey tool p2)
    ∧ (∀ (t1 t2 : String) (p1 p2 : List (String × JsValue)),
        (p1.map Prod.fst).Nodup → (p2.map Prod.fst).Nodup →
        (∀ kv ∈ restOf p1, kv.2.isPrim = true) →
        (∀ kv ∈ restOf p2, kv.2.isPrim = true) →
        ':' ∉ t1.data → ':' ∉ t2.data →
        generateKey t1 p1 = generateKey t2 p2 →
        t1 = t2 ∧ ∀ k, lookupField k (restOf p1) = lookupField k (restOf p2)) := by
  constructor
  · intro tool p1 p2 hnd1 hperm
    have hks : sortedKeysOf p1 = sortedKeysOf p2 :=
      List.eq_of_perm_of_sorted
        ((List.perm_insertionSort strLeRel _).trans
          ((hperm.map Prod.fst).trans (List.perm_insertionSort strLeRel _).symm))
        (List.sorted_insertionSort strLeRel _) (List.sorted_insertionSort strLeRel _)
    have hlook : ∀ k, lookupField k (restOf p1) = lookupField k (restOf p2) :=
      lookupField_perm hperm (restOf_keys_nodup hnd1)
    have hfuel : jsFieldsSize (restOf p1) = jsFieldsSize (restOf p2) :=
      jsFieldsSize_perm hperm
    simp only [generateKey, jsonStringifyWith]
    rw [hks, jsSize_vObj, jsSize_vObj, hfuel, serF_succ_obj, serF_succ_obj,
      orderFields_congr _ hlook]
  · intro t1 t2 p1 p2 hnd1 hnd2 hflat1 hflat2 hc1 hc2 heq
    have hdata := congrArg String.data heq
    rw [generateKey_data, generateKey_data] at hdata
    obtain ⟨hteq, hser⟩ := append_colon_inj t1.data t2.data _ _ hc1 hc2 hdata
    have htool : t1 = t2 := by
      cases t1 with
      | mk d1 =>
        cases t2 with
        | mk d2 => exact congrArg String.mk (by simpa using hteq)
    refine ⟨htool, ?_⟩
    rw [jsSize_vObj, jsSize_vObj, serF_succ_obj, serF_succ_obj] at hser
    have hflato1 : ∀ kv ∈ orderFields (sortedKeysOf p1) (restOf p1), kv.2.isPrim = true :=
      fun kv hkv => hflat1 kv (orderFields_mem hkv)
    have hflato2 : ∀ kv ∈ orderFields (sortedKeysOf p2) (restOf p2), kv.2.isPrim = true :=
      fun kv hkv => hflat2 kv (orderFields_mem hkv)
    have hconv1 : serMembersWith (serF (jsFieldsSize (restOf p1)) (sortedKeysOf p1))
        (orderFields (sortedKeysOf p1) (restOf p1))
        = serMembersWith serPrim (orderFields (sortedKeysOf p1) (restOf p1)) :=
      serMembersWith_congr _ _ _ (fun kv hkv =>
        serF_prim _ (jsFieldsSize_pos_of_mem (orderFields_mem hkv)) _ _ (hflato1 kv hkv))
    have hconv2 : serMembersWith (serF (jsFieldsSize (restOf p2)) (sortedKeysOf p2))
        (orderFields (sortedKeysOf p2) (restOf p2))
        = serMembersWith serPrim (orderFields (sortedKeysOf p2) (restOf p2)) :=
      serMembersWith_congr _ _ _ (fun kv hkv =>
        serF_prim _ (jsFieldsSize_pos_of_mem (orderFields_mem hkv)) _ _ (hflato2 kv hkv))
    rw [hconv1, hconv2] at hser
    have hbody : serMembersWith serPrim (orderFields (sortedKeysOf p1) (restOf p1))
          ++ '\x7d' :: []
        = serMembersWith serPrim (orderFields (sortedKeysOf p2) (restOf p2))
          ++ '\x7d' :: [] := by
      have := List.cons.inj hser
      simpa using this.2
    have hp1 := parseMembers_serMembers (orderFields (sortedKeysOf p1) (restOf p1))
      (max (orderFields (sortedKeysOf p1) (restOf p1)).length
        (orderFields (sortedKeysOf p2) (restOf p2)).length + 1) []
      (by omega) hflato1
    have hp2 := parseMembers_serMembers (orderFields (sortedKeysOf p2) (restOf p2))
      (max (orderFields (sortedKeysOf p1) (restOf p1)).length
        (orderFields (sortedKeysOf p2) (restOf p2)).length + 1) []
      (by omega) hflato2
    rw [hbody] at hp1
    have hord : orderFields (sortedKeysOf p1) (restOf p1)
        = orderFields (sortedKeysOf p2) (restOf p2) := by
      have := hp1.symm.trans hp2
      simpa using this
    have hnds1 : (sortedKeysOf p1).Nodup :=
      ((List.perm_insertionSort strLeRel _).nodup_iff).mpr (restOf_keys_nodup hnd1)
    have hnds2 : (sortedKeysOf p2).Nodup :=
      ((List.perm_insertionSort strLeRel _).nodup_iff).mpr (restOf_keys_nodup hnd2)
    have hksmem1 : ∀ k, k ∈ sortedKeysOf p1 ↔ k ∈ (restOf p1).map Prod.fst :=
      fun k => (List.perm_insertionSort strLeRel _).mem_iff
    have hksmem2 : ∀ k, k ∈ sortedKeysOf p2 ↔ k ∈ (restOf p2).map Prod.fst :=
      fun k => (List.perm_insertionSort strLeRel _).mem_iff
    intro k
    have h1 := lookupField_orderFields (sortedKeysOf p1) (restOf p1) hnds1 k
    have h2 := lookupField_orderFields (sortedKeysOf p2) (restOf p2) hnds2 k
    rw [hord] at h1
    by_cases hk1 : k ∈ sortedKeysOf p1
    · rw [if_pos hk1] at h1
      by_cases hk2 : k ∈ sortedKeysOf p2
      · rw [if_pos hk2] at h2
        rw [← h1, h2]
      · rw [if_neg hk2] at h2
        obtain ⟨v, hv⟩ : ∃ v, lookupField k (restOf p1) = some v := by
          cases hopt : lookupField k (restOf p1) with
          | none =>
            exact absurd ((hksmem1 k).mp hk1) (lookupField_eq_none.mp hopt)
          | some v => exact ⟨v, rfl⟩
        rw [hv] at h1
        rw [h2] at h1
        exact absurd h1 (by simp)
    · rw [if_neg hk1] at h1
      have hnone1 : lookupField k (restOf p1) = none :=
        lookupField_eq_none.mpr (fun hmem => hk1 ((hksmem1 k).mpr hmem))
      by_cases hk2 : k ∈ sortedKeysOf p2
      · rw [if_pos hk2] at h2
        rw [hnone1, ← h2, h1]
      · rw [if_neg hk2] at h2
        have hnone2 : lookupField k (restOf p2) = none :=
          lookupField_eq_none.mpr (fun hmem => hk2 ((hksmem2 k).mpr hmem))
        rw [hnone1, hnone2]

/-- Witness for `generateKey_spec`: the spec's example keys.  Reordering the
fields and changing `reasoning` leaves the key unchanged; the same query
under `search_content` and `search_files` yields different keys. -/
theorem generateKey_spec_witness :
    generateKey "search_content"
        [("query", .vStr "a"), ("path", .vStr "/x"), ("reasoning", .vStr "r1")]
      = generateKey "search_content"
        [("path", .vStr "/x"), ("query", .vStr "a"), ("reasoning", .vStr "r2")]
    ∧ generateKey "search_content" [("query", .vStr "a")]
      ≠ generateKey "search_files" [("query", .vStr "a")] := by
  constructor
  · apply generateKey_spec.1
    · decide
    · show List.Perm
        [("query", JsValue.vStr "a"), ("path", JsValue.vStr "/x")]
        [("path", JsValue.vStr "/x"), ("query", JsValue.vStr "a")]
      exact List.Perm.swap ("path", JsValue.vStr "/x") ("query", JsValue.vStr "a") []
  · intro h
    have h2 := generateKey_spec.2 "search_content" "search_files"
      [("query", .vStr "a")] [("query", .vStr "a")]
      (by decide) (by decide)
      (by
        intro kv hkv
        have hkv' : kv ∈ [(("query" : String), JsValue.vStr "a")] := hkv
        rw [List.mem_singleton] at hkv'
        rw [hkv']
        rfl)
      (by
        intro kv hkv
        have hkv' : kv ∈ [(("query" : String), JsValue.vStr "a")] := hkv
        rw [List.mem_singleton] at hkv'
        rw [hkv']
        rfl)
      (by decide) (by decide) h
    exact absurd h2.1 (by decide)

/-- C5, counterexample to the claim as stated: two parameter objects that
differ in the value of the remaining field `a` — nested objects
`\x7b x: 1 \x7d` versus `\x7b y: 2 \x7d` — produce the *same* cache key
`t:\x7b"a":\x7b\x7d\x7d`, because the sorted top-level key list `["a"]` is also
applied, as the `JSON.stringify` replacer, to the nested object, stripping
`x` and `y` from it. -/
theorem generateKey_counterexample :
    generateKey "t" [("a", .vObj [("x", .vNum 1)])]
      = generateKey "t" [("a", .vObj [("y", .vNum 2)])]
    ∧ lookupField "a" [("a", JsValue.vObj [("x", JsValue.vNum 1)])]
      ≠ lookupField "a" [("a", JsValue.vObj [("y", JsValue.vNum 2)])] := by
  constructor
  · have e1 : generateKey "t" [("a", JsValue.vObj [("x", JsValue.vNum 1)])]
        = "t:\x7b\"a\":\x7b\x7d\x7d" := by
      rw [generateKey, jsonStringifyWith]
      have h : jsSize (JsValue.vObj (restOf [("a", JsValue.vObj [("x", .vNum 1)])])) = 5 := by
        simp [jsSize, jsFieldsSize, restOf]
      rw [h]
      decide
    have e2 : generateKey "t" [("a", JsValue.vObj [("y", JsValue.vNum 2)])]
        = "t:\x7b\"a\":\x7b\x7d\x7d" := by
      rw [generateKey, jsonStringifyWith]
      have h : jsSize (JsValue.vObj (restOf [("a", JsValue.vObj [("y", .vNum 2)])])) = 5 := by
        simp [jsSize, jsFieldsSize, restOf]
      rw [h]
      decide
    rw [e1, e2]
  · intro h
    simp only [lookupField, if_pos, Option.some.injEq] at h
    simp at h

end FileSearch
